import Mathlib

/-!
Verification of the GO-BACKTEST-AggTrades core: a shallow embedding of the
online moments accumulator and metric finalizer (metrics.go, and the older
single-pass variant), the GNC-v2 trade-blob codec (encoder in the ingestion
unit, decoder in the shared-decoder unit), the TBV1 zero-copy header
validator, and the index-entry bounds validators, together with theorems
settling the spec's claims about them.

Machine integers are modelled as Nat/Int with explicit `% 2 ^ w` wherever Go
wraps; float64 arithmetic is modelled exactly over ℚ, with `math.Sqrt`
abstracted as an explicit function parameter where a formula uses it.
-/

namespace AggTrades

/-! ## Byte-level primitives (binary.LittleEndian, Go integer casts) -/

/-- Two's-complement reading of the low `w` bits of `n` (Go `int32(u)`, `int64(u)`). -/
def toSigned (w : ℕ) (n : ℕ) : ℤ :=
  if n % 2 ^ w < 2 ^ (w - 1) then ((n % 2 ^ w : ℕ) : ℤ)
  else ((n % 2 ^ w : ℕ) : ℤ) - 2 ^ w

/-- Go signed 64-bit arithmetic: wrap an integer into `[-2^63, 2^63)`. -/
def wrap64 (x : ℤ) : ℤ := (x + 2 ^ 63) % 2 ^ 64 - 2 ^ 63

/-- The unsigned 64-bit pattern of an int64 value (Go `uint64(x)`). -/
def bits64 (x : ℤ) : ℕ := (x % 2 ^ 64).toNat

/-- The unsigned 32-bit pattern of an int32 value (Go `uint32(x)` bit cast). -/
def bits32 (x : ℤ) : ℕ := (x % 2 ^ 32).toNat

/-- Little-endian value of a byte list; each entry is reduced mod 256, so on
genuine byte lists this is the identity reading. -/
def bytesToNat : List ℕ → ℕ
  | [] => 0
  | b :: bs => b % 256 + 256 * bytesToNat bs

/-- The `w`-byte little-endian encoding of `x` (Go `binary.LittleEndian.PutUintN`). -/
def natLE : ℕ → ℕ → List ℕ
  | 0, _ => []
  | w + 1, x => x % 256 :: natLE w (x / 256)

/-- Read `w` little-endian bytes of `blob` starting at byte `i`
(Go `binary.LittleEndian.UintN(blob[i : i+w])`). -/
def readLE (blob : List ℕ) (i w : ℕ) : ℕ := bytesToNat ((blob.drop i).take w)

/-! ## metrics.go: Moments, Moments.Add, CalcMomentsVectors, FinalizeMetrics -/

/-- `Moments` of metrics.go: raw sums for global aggregation. -/
structure Moments where
  Count : ℚ
  SumSig : ℚ
  SumRet : ℚ
  SumProd : ℚ
  SumSqSig : ℚ
  SumSqRet : ℚ
  SumPnL : ℚ
  SumSqPnL : ℚ
  Hits : ℚ
  ValidHits : ℚ
  SumAbsDeltaSig : ℚ
  SumProdLag : ℚ
  SumAbsSig : ℚ
  SumAbsProdLag : ℚ
  SegCount : ℚ
  SegLenTotal : ℚ
  SegLenMax : ℚ
deriving DecidableEq, Repr

/-- The zero value `Moments{}` of Go. -/
def Moments.zero : Moments :=
  ⟨0, 0, 0, 0, 0, 0, 0, 0, 0, 0, 0, 0, 0, 0, 0, 0, 0⟩

/-- `(m *Moments) Add(m2)` of metrics.go, as a pure function returning the
updated receiver: field-wise addition, max-combine for `SegLenMax`. -/
def Moments.Add (m m2 : Moments) : Moments where
  Count := m.Count + m2.Count
  SumSig := m.SumSig + m2.SumSig
  SumRet := m.SumRet + m2.SumRet
  SumProd := m.SumProd + m2.SumProd
  SumSqSig := m.SumSqSig + m2.SumSqSig
  SumSqRet := m.SumSqRet + m2.SumSqRet
  SumPnL := m.SumPnL + m2.SumPnL
  SumSqPnL := m.SumSqPnL + m2.SumSqPnL
  Hits := m.Hits + m2.Hits
  ValidHits := m.ValidHits + m2.ValidHits
  SumAbsDeltaSig := m.SumAbsDeltaSig + m2.SumAbsDeltaSig
  SumProdLag := m.SumProdLag + m2.SumProdLag
  SumAbsSig := m.SumAbsSig + m2.SumAbsSig
  SumAbsProdLag := m.SumAbsProdLag + m2.SumAbsProdLag
  SegCount := m.SegCount + m2.SegCount
  SegLenTotal := m.SegLenTotal + m2.SegLenTotal
  SegLenMax := if m2.SegLenMax > m.SegLenMax then m2.SegLenMax else m.SegLenMax

/-- Accumulator of loop 1 of CalcMomentsVectors (the pure-math loop). -/
structure Loop1 where
  sumSig : ℚ
  sumRet : ℚ
  sumProd : ℚ
  sumSqSig : ℚ
  sumSqRet : ℚ
  sumPnL : ℚ
  sumSqPnL : ℚ
  sumAbsSig : ℚ
deriving DecidableEq, Repr

/-- One iteration of loop 1 of CalcMomentsVectors on the pair `(s, r)`. -/
def loop1Step (a : Loop1) (sr : ℚ × ℚ) : Loop1 :=
  let s := sr.1
  let r := sr.2
  let pnl := s * r
  let absS := if s < 0 then -s else s
  { sumSig := a.sumSig + s
    sumRet := a.sumRet + r
    sumProd := a.sumProd + s * r
    sumSqSig := a.sumSqSig + s * s
    sumSqRet := a.sumSqRet + r * r
    sumPnL := a.sumPnL + pnl
    sumSqPnL := a.sumSqPnL + pnl * pnl
    sumAbsSig := a.sumAbsSig + absS }

/-- Loop 1 of CalcMomentsVectors over the lockstep pairs of the two arrays. -/
def loop1 (ps : List (ℚ × ℚ)) : Loop1 :=
  ps.foldl loop1Step ⟨0, 0, 0, 0, 0, 0, 0, 0⟩

/-- State of loop 2 of CalcMomentsVectors (the branchy logic loop). -/
structure Loop2 where
  prevSig : ℚ
  prevSign : ℚ
  curSegLen : ℚ
  hits : ℚ
  validHits : ℚ
  sumAbsDelta : ℚ
  sumProdLag : ℚ
  sumAbsProdLag : ℚ
  segCount : ℚ
  segLenTotal : ℚ
  segLenMax : ℚ
deriving DecidableEq, Repr

def Loop2.init : Loop2 := ⟨0, 0, 0, 0, 0, 0, 0, 0, 0, 0, 0⟩

/-- One iteration of loop 2 of CalcMomentsVectors; `isFirst` is Go's `i > 0`
test inverted (the lag block is skipped on the first element). -/
def loop2Step (st : Loop2) (isFirst : Bool) (sr : ℚ × ℚ) : Loop2 :=
  let s := sr.1
  let r := sr.2
  let hits := if s ≠ 0 ∧ r ≠ 0 ∧ ((s > 0 ∧ r > 0) ∨ (s < 0 ∧ r < 0))
    then st.hits + 1 else st.hits
  let validHits := if s ≠ 0 ∧ r ≠ 0 then st.validHits + 1 else st.validHits
  let d0 := s - st.prevSig
  let d := if d0 < 0 then -d0 else d0
  let absPrev := if st.prevSig < 0 then -st.prevSig else st.prevSig
  let absS := if s < 0 then -s else s
  let sumAbsDelta := if isFirst then st.sumAbsDelta else st.sumAbsDelta + d
  let sumProdLag := if isFirst then st.sumProdLag else st.sumProdLag + s * st.prevSig
  let sumAbsProdLag :=
    if isFirst then st.sumAbsProdLag else st.sumAbsProdLag + absS * absPrev
  let sign : ℚ := if s > 0 then 1 else if s < 0 then -1 else 0
  let closed : ℚ × ℚ × ℚ × ℚ :=
    if sign ≠ 0 then
      if st.prevSign = sign then
        (st.segCount, st.segLenTotal, st.segLenMax, st.curSegLen + 1)
      else if st.curSegLen > 0 then
        (st.segCount + 1, st.segLenTotal + st.curSegLen,
          if st.curSegLen > st.segLenMax then st.curSegLen else st.segLenMax, 1)
      else (st.segCount, st.segLenTotal, st.segLenMax, 1)
    else if st.curSegLen > 0 then
      (st.segCount + 1, st.segLenTotal + st.curSegLen,
        if st.curSegLen > st.segLenMax then st.curSegLen else st.segLenMax, 0)
    else (st.segCount, st.segLenTotal, st.segLenMax, st.curSegLen)
  { prevSig := s
    prevSign := sign
    curSegLen := closed.2.2.2
    hits := hits
    validHits := validHits
    sumAbsDelta := sumAbsDelta
    sumProdLag := sumProdLag
    sumAbsProdLag := sumAbsProdLag
    segCount := closed.1
    segLenTotal := closed.2.1
    segLenMax := closed.2.2.1 }

/-- The tail of loop 2 after the first iteration (`i > 0` from then on). -/
def loop2Aux (st : Loop2) : List (ℚ × ℚ) → Loop2
  | [] => st
  | p :: rest => loop2Aux (loop2Step st false p) rest

/-- Loop 2 of CalcMomentsVectors over the lockstep pairs. -/
def loop2 (ps : List (ℚ × ℚ)) : Loop2 :=
  match ps with
  | [] => Loop2.init
  | p :: rest => loop2Aux (loop2Step Loop2.init true p) rest

/-- The final segment close after loop 2 of CalcMomentsVectors. -/
def segClose (st : Loop2) : Loop2 :=
  if st.curSegLen > 0 then
    { st with
      segCount := st.segCount + 1
      segLenTotal := st.segLenTotal + st.curSegLen
      segLenMax := if st.curSegLen > st.segLenMax then st.curSegLen else st.segLenMax }
  else st

/-- `CalcMomentsVectors(sigs, rets)` of metrics.go over exact rationals: two
passes over the lockstep pairs of the equal-length arrays, assembled into a
`Moments`. -/
def CalcMomentsVectors (sigs rets : List ℚ) : Moments :=
  if sigs.length = 0 then Moments.zero
  else
    let l1 := loop1 (sigs.zip rets)
    let l2 := segClose (loop2 (sigs.zip rets))
    { Count := sigs.length
      SumSig := l1.sumSig
      SumRet := l1.sumRet
      SumProd := l1.sumProd
      SumSqSig := l1.sumSqSig
      SumSqRet := l1.sumSqRet
      SumPnL := l1.sumPnL
      SumSqPnL := l1.sumSqPnL
      Hits := l2.hits
      ValidHits := l2.validHits
      SumAbsDeltaSig := l2.sumAbsDelta
      SumProdLag := l2.sumProdLag
      SumAbsSig := l1.sumAbsSig
      SumAbsProdLag := l2.sumAbsProdLag
      SegCount := l2.segCount
      SegLenTotal := l2.segLenTotal
      SegLenMax := l2.segLenMax }

/-- `MetricStats` of metrics.go. -/
structure MetricStats where
  Count : ℤ
  ICPearson : ℚ
  IC_TStat : ℚ
  Sharpe : ℚ
  HitRate : ℚ
  BreakevenBps : ℚ
  AutoCorr : ℚ
  AutoCorrAbs : ℚ
  AvgSegLen : ℚ
  MaxSegLen : ℚ
deriving DecidableEq, Repr

/-- Go `int(x)` on a float64: truncation toward zero. -/
def ratTrunc (x : ℚ) : ℤ := if 0 ≤ x then ⌊x⌋ else ⌈x⌉

/-- Go's float literal `1e-18` (exact in the rational model). -/
def eps18 : ℚ := 1 / 10 ^ 18

/-- The Pearson numerator `num` of FinalizeMetrics. -/
def pearsonNum (m : Moments) : ℚ := m.Count * m.SumProd - m.SumSig * m.SumRet

/-- The signal variance denominator `denX` of FinalizeMetrics. -/
def denX (m : Moments) : ℚ := m.Count * m.SumSqSig - m.SumSig * m.SumSig

/-- The return variance denominator `denY` of FinalizeMetrics. -/
def denY (m : Moments) : ℚ := m.Count * m.SumSqRet - m.SumRet * m.SumRet

/-- The PnL variance `varPnL` of FinalizeMetrics. -/
def varPnLOf (m : Moments) : ℚ :=
  m.SumSqPnL / m.Count - m.SumPnL / m.Count * (m.SumPnL / m.Count)

/-- The signal variance `varSig` of FinalizeMetrics. -/
def varSigOf (m : Moments) : ℚ :=
  m.SumSqSig / m.Count - m.SumSig / m.Count * (m.SumSig / m.Count)

/-- The `varAbs` denominator of FinalizeMetrics (note the source reuses
`SumSqSig` with the absolute-signal mean). -/
def varAbsOf (m : Moments) : ℚ :=
  m.SumSqSig / m.Count - m.SumAbsSig / m.Count * (m.SumAbsSig / m.Count)

/-- The running (sum, sum of squares) pair of `dailyICs` in FinalizeMetrics. -/
def icsSums (l : List ℚ) : ℚ × ℚ :=
  l.foldl (fun (a : ℚ × ℚ) v => (a.1 + v, a.2 + v * v)) (0, 0)

/-- The daily-IC mean of FinalizeMetrics. -/
def icsMean (l : List ℚ) : ℚ := (icsSums l).1 / (l.length : ℚ)

/-- The daily-IC variance of FinalizeMetrics. -/
def icsVariance (l : List ℚ) : ℚ :=
  (icsSums l).2 / (l.length : ℚ) - icsMean l * icsMean l

/-- `FinalizeMetrics(m, dailyICs)` of metrics.go over exact rationals.
`math.Sqrt` is abstracted as the explicit parameter `sq`; every other
operation follows the source line by line, with the source's local
denominators named by the helper definitions above. -/
def FinalizeMetrics (sq : ℚ → ℚ) (m : Moments) (dailyICs : List ℚ) : MetricStats :=
  if m.Count ≤ 1 then
    { Count := ratTrunc m.Count, ICPearson := 0, IC_TStat := 0, Sharpe := 0,
      HitRate := 0, BreakevenBps := 0, AutoCorr := 0, AutoCorrAbs := 0,
      AvgSegLen := 0, MaxSegLen := 0 }
  else
    let icPearson := if denX m > 0 ∧ denY m > 0
      then pearsonNum m / sq (denX m * denY m) else 0
    let sharpe := if varPnLOf m > eps18 then m.SumPnL / m.Count / sq (varPnLOf m) else 0
    let hitRate := if m.ValidHits > 0 then m.Hits / m.ValidHits else 0
    let breakeven :=
      if m.SumAbsDeltaSig > eps18 then m.SumPnL / m.SumAbsDeltaSig * 10000 else 0
    let covLag := m.SumProdLag / m.Count - m.SumSig / m.Count * (m.SumSig / m.Count)
    let autoCorr := if varSigOf m > eps18 then covLag / varSigOf m else 0
    let covAbs := m.SumAbsProdLag / m.Count - m.SumAbsSig / m.Count * (m.SumAbsSig / m.Count)
    let autoCorrAbs := if m.Count > 0 ∧ varAbsOf m > eps18 then covAbs / varAbsOf m else 0
    let avgSeg := if m.SegCount > 0 then m.SegLenTotal / m.SegCount else 0
    let icT :=
      if dailyICs.length > 1 then
        if icsVariance dailyICs > eps18 then
          icsMean dailyICs / (sq (icsVariance dailyICs) / sq (dailyICs.length : ℚ))
        else 0
      else 0
    { Count := ratTrunc m.Count
      ICPearson := icPearson
      IC_TStat := icT
      Sharpe := sharpe
      HitRate := hitRate
      BreakevenBps := breakeven
      AutoCorr := autoCorr
      AutoCorrAbs := autoCorrAbs
      AvgSegLen := avgSeg
      MaxSegLen := m.SegLenMax }

/-! ## The older single-pass accumulator (`CalcMoments` unit) -/

namespace V0

/-- `Moments` of the older single-pass metrics unit. -/
structure Moments where
  Count : ℚ
  SumSig : ℚ
  SumRet : ℚ
  SumProd : ℚ
  SumSqSig : ℚ
  SumSqRet : ℚ
  SumPnL : ℚ
  SumSqPnL : ℚ
  Hits : ℚ
  ValidHits : ℚ
  Turnover : ℚ
deriving DecidableEq, Repr

/-- The zero value `Moments{}` of Go. -/
def Moments.zero : Moments := ⟨0, 0, 0, 0, 0, 0, 0, 0, 0, 0, 0⟩

/-- Loop state of `CalcMoments` (the local registers of the hot loop). -/
structure CMState where
  sSum : ℚ
  rSum : ℚ
  sSq : ℚ
  rSq : ℚ
  prodSum : ℚ
  pnlSum : ℚ
  pnlSq : ℚ
  hits : ℚ
  valid : ℚ
  turnover : ℚ
  prevSig : ℚ
deriving DecidableEq, Repr

/-- One iteration of the `CalcMoments` loop; `isFirst` inverts Go's `i > 0`
guard on the turnover term. -/
def cmStep (st : CMState) (isFirst : Bool) (sr : ℚ × ℚ) : CMState :=
  let s := sr.1
  let r := sr.2
  let pnl := s * r
  let d0 := s - st.prevSig
  let d := if d0 < 0 then -d0 else d0
  { sSum := st.sSum + s
    rSum := st.rSum + r
    sSq := st.sSq + s * s
    rSq := st.rSq + r * r
    prodSum := st.prodSum + s * r
    pnlSum := st.pnlSum + pnl
    pnlSq := st.pnlSq + pnl * pnl
    hits := if s ≠ 0 ∧ r ≠ 0 ∧ ((s > 0 ∧ r > 0) ∨ (s < 0 ∧ r < 0))
      then st.hits + 1 else st.hits
    valid := if s ≠ 0 ∧ r ≠ 0 then st.valid + 1 else st.valid
    turnover := if isFirst then st.turnover else st.turnover + d
    prevSig := s }

/-- The `CalcMoments` loop from the second element on. -/
def cmAux (st : CMState) : List (ℚ × ℚ) → CMState
  | [] => st
  | p :: rest => cmAux (cmStep st false p) rest

/-- `CalcMoments(sig, ret)` of the older metrics unit: degenerate for
`len(sig) < 2` (the Go zero value), otherwise one pass over the lockstep
pairs with `prevSig` seeded from `sig[0]`. -/
def CalcMoments (sig ret : List ℚ) : Moments :=
  if sig.length < 2 then Moments.zero
  else
    let init : CMState := ⟨0, 0, 0, 0, 0, 0, 0, 0, 0, 0, sig.headD 0⟩
    let st :=
      match sig.zip ret with
      | [] => init
      | p :: rest => cmAux (cmStep init true p) rest
    { Count := sig.length
      SumSig := st.sSum
      SumRet := st.rSum
      SumProd := st.prodSum
      SumSqSig := st.sSq
      SumSqRet := st.rSq
      SumPnL := st.pnlSum
      SumSqPnL := st.pnlSq
      Hits := st.hits
      ValidHits := st.valid
      Turnover := st.turnover }

end V0

/-! ## GNC-v2 encoder (ingestion unit: encodeGNC / encodeChunk) -/

/-- One parsed trade row of the ingestion buffers: time (int64 epoch ms),
fixed-point price (int64), scaled quantity (uint64), match count (uint16)
and buy side, kept as one logical record of the parallel arrays. -/
structure Trade where
  t : ℤ
  p : ℤ
  q : ℕ
  m : ℕ
  buy : Bool
deriving DecidableEq, Repr

/-- Encoder failure cases of encodeChunk. -/
inductive EncErr
  | timeDeltaOverflow
  | qtyDictOverflow
  | emptyChunk
deriving DecidableEq, Repr

/-- The bytes of the GNC magic header, the four characters of "GNC2". -/
def gncMagic : List ℕ := [71, 78, 67, 50]

/-- GNC chunking constant of the shared configuration. -/
def GNCChunkSize : ℕ := 65536

/-- Dictionary lookup-or-insert on the append-only quantity dictionary,
represented by its insertion log: a present value keeps its id (its index),
a fresh value is appended unless the log already has 65535 entries. -/
def dictInsert (log : List ℕ) (q : ℕ) : Except EncErr (ℕ × List ℕ) :=
  match log.findIdx? (· = q) with
  | some id => .ok (id, log)
  | none =>
    if log.length ≥ 65535 then .error .qtyDictOverflow
    else .ok (log.length, log ++ [q])

/-- The per-row loop of encodeChunk from the second row of a chunk on:
computes wrapped int64 deltas against the previous row, rejects a time delta
outside the signed 32-bit range, resolves the quantity id, and collects the
time-delta, price-delta, quantity-id and side columns. -/
def encRows (log : List ℕ) (lastT lastP : ℤ) :
    List Trade → Except EncErr (List ℤ × List ℤ × List ℕ × List Bool × List ℕ)
  | [] => .ok ([], [], [], [], log)
  | r :: rest =>
    let dt := wrap64 (r.t - lastT)
    let dp := wrap64 (r.p - lastP)
    if dt > 2147483647 ∨ dt < -2147483648 then .error .timeDeltaOverflow
    else
      match dictInsert log r.q with
      | .error e => .error e
      | .ok (id, log1) =>
        match encRows log1 r.t r.p rest with
        | .error e => .error e
        | .ok (ts, ps, qs, bs, logF) =>
          .ok (dt :: ts, dp :: ps, id :: qs, r.buy :: bs, logF)

/-- Little-endian byte value of the first (up to) eight booleans, bit `k`
set when the `k`-th one is true. -/
def bitsToByte (bs : List Bool) : ℕ :=
  bs.foldr (fun b acc => 2 * acc + cond b 1 0) 0

/-- Pack one bit per flag into `(len + 7) / 8` bytes, bit `i % 8` of byte
`i / 8`, exactly the sideBits layout of encodeChunk. -/
def packBits : List Bool → List ℕ
  | [] => []
  | b :: rest => bitsToByte ((b :: rest).take 8) :: packBits (rest.drop 7)
termination_by bs => bs.length
decreasing_by
  simp only [List.length_drop, List.length_cons]
  omega

/-- `encodeChunk` of the ingestion unit on one chunk's rows, threading the
shared quantity dictionary: returns the chunk's bytes (18-byte header, then
the int32 time-delta, int64 price-delta, uint16 quantity-id and uint16
match-count arrays, then the packed side bits) and the updated dictionary
log. The chunk row count is written as a uint16, `count % 2^16`. -/
def encodeChunk (rows : List Trade) (log : List ℕ) :
    Except EncErr (List ℕ × List ℕ) :=
  match rows with
  | [] => .error .emptyChunk
  | r0 :: rest =>
    match dictInsert log r0.q with
    | .error e => .error e
    | .ok (id0, log0) =>
      match encRows log0 r0.t r0.p rest with
      | .error e => .error e
      | .ok (ts, ps, qs, bs, logF) =>
        let dts : List ℤ := 0 :: ts
        let dps : List ℤ := 0 :: ps
        let ids : List ℕ := id0 :: qs
        let buys : List Bool := r0.buy :: bs
        let head := natLE 2 rows.length ++ natLE 8 (bits64 r0.t) ++ natLE 8 (bits64 r0.p)
        let body :=
          (dts.map fun d => natLE 4 (bits32 d)).flatten ++
          (dps.map fun d => natLE 8 (bits64 d)).flatten ++
          (ids.map fun i => natLE 2 i).flatten ++
          (rows.map fun r => natLE 2 r.m).flatten ++
          packBits buys
        .ok (head ++ body, logF)

/-- The fixed-size chunk partition of encodeGNC's outer loop. -/
def chunksGNC : List Trade → List (List Trade)
  | [] => []
  | a :: rest => (a :: rest).take GNCChunkSize :: chunksGNC ((a :: rest).drop GNCChunkSize)
termination_by l => l.length
decreasing_by
  simp only [List.length_drop, List.length_cons, GNCChunkSize]
  omega

/-- Encode every chunk in order at its running byte offset, threading the
dictionary log; returns (chunk bytes, chunk-offset table, final log). -/
def encChunks (log : List ℕ) (pos : ℕ) :
    List (List Trade) → Except EncErr (List ℕ × List ℕ × List ℕ)
  | [] => .ok ([], [], log)
  | c :: cs =>
    match encodeChunk c log with
    | .error e => .error e
    | .ok (b, log1) =>
      match encChunks log1 (pos + b.length) cs with
      | .error e => .error e
      | .ok (bs, offs, logF) => .ok (b ++ bs, pos :: offs, logF)

/-- Overwrite the bytes of `l` at position `i` with `v` (the footer-offset
patch `binary.LittleEndian.PutUint64(finalBytes[footerOffsetPos:], ...)`). -/
def writeAt (l : List ℕ) (i : ℕ) (v : List ℕ) : List ℕ :=
  l.take i ++ v ++ l.drop (i + v.length)

/-- The GNC footer: dictionary count and entries, then chunk-offset count
and entries. -/
def gncFooter (log offs : List ℕ) : List ℕ :=
  natLE 4 log.length ++ (log.map fun q => natLE 8 q).flatten ++
  natLE 4 offs.length ++ (offs.map fun o => natLE 4 o).flatten

/-- `encodeGNC` of the ingestion unit: 32-byte header (magic, uint32 row
count, int64 base time and base price, a zero footer-offset slot), the
chunks at `GNCChunkSize` rows apiece, the footer, and finally the patch of
the footer offset into bytes 24..32. Returns the blob and the row count. -/
def encodeGNC (rows : List Trade) : Except EncErr (List ℕ × ℕ) :=
  match rows with
  | [] => .ok ([], 0)
  | r0 :: _ =>
    match encChunks [] 32 (chunksGNC rows) with
    | .error e => .error e
    | .ok (chunkBytes, offs, logF) =>
      let header := gncMagic ++ natLE 4 rows.length ++
        natLE 8 (bits64 r0.t) ++ natLE 8 (bits64 r0.p) ++ natLE 8 0
      let footerStart := 32 + chunkBytes.length
      let buf := header ++ chunkBytes ++ gncFooter logF offs
      .ok (writeAt buf 24 (natLE 8 footerStart), rows.length)

/-! ## GNC-v2 decoder (shared decoder: inflateGNCToColumns)

The decoder is modelled in an error monad with two failure modes: `corrupt`
is the decoder's own `return 0, false`, and `oob` marks a Go runtime bounds
violation (an index or address-of outside the backing buffer, which aborts
the process). The decoder appends into fresh (reset) columns, as its callers
hand it pooled, reset `DayColumns`. -/

/-- Decoder outcome of the shared decoder. -/
inductive DecErr
  | corrupt
  | oob
deriving DecidableEq, Repr

/-- The decoded columnar day (`DayColumns` of the shared configuration):
times in epoch ms, prices and quantities descaled by the fixed 1e8 scales,
sides as plus or minus one, match counts. -/
structure DayColumns where
  Times : List ℤ
  Prices : List ℚ
  Qtys : List ℚ
  Sides : List ℤ
  Matches : List ℕ
deriving DecidableEq, Repr

def DayColumns.empty : DayColumns := ⟨[], [], [], [], []⟩

/-- Append a decoded chunk's rows onto the accumulated columns. -/
def DayColumns.append (c d : DayColumns) : DayColumns :=
  ⟨c.Times ++ d.Times, c.Prices ++ d.Prices, c.Qtys ++ d.Qtys,
    c.Sides ++ d.Sides, c.Matches ++ d.Matches⟩

/-- The fixed-point price scale of the shared configuration. -/
def PxScale : ℚ := 100000000

/-- The fixed-point quantity scale of the shared configuration. -/
def QtScale : ℚ := 100000000

/-- Absolute values reconstructed from a chunk base as a running sum of
deltas with Go's wrapping int64 addition. -/
def runningSums (base : ℤ) : List ℤ → List ℤ
  | [] => []
  | d :: ds => wrap64 (base + d) :: runningSums (wrap64 (base + d)) ds

/-- The array phase of one chunk decode, after `hasMatches` and the side
offset are settled: Go first takes the address of the first element of each
column (a bounds-checked index), then checks the side-bit length, then runs
the reconstruction loop. -/
def decodeChunkBody (chunk : List ℕ) (qtyDict : List ℚ) (n : ℕ) (baseT baseP : ℤ)
    (hasMatches : Bool) (pSide : ℕ) : Except DecErr DayColumns :=
  if 18 ≥ chunk.length ∨ 18 + n * 4 ≥ chunk.length ∨ 18 + n * 12 ≥ chunk.length ∨
      (hasMatches = true ∧ 18 + n * 14 ≥ chunk.length) then .error .oob
  else
    if (chunk.drop pSide).length < (n + 7) / 8 then .error .corrupt
    else
      .ok { Times := runningSums baseT
              ((List.range n).map fun i => toSigned 32 (readLE chunk (18 + 4 * i) 4))
            Prices := (runningSums baseP ((List.range n).map fun i =>
              toSigned 64 (readLE chunk (18 + n * 4 + 8 * i) 8))).map
                fun (p : ℤ) => (p : ℚ) / PxScale
            Qtys := ((List.range n).map fun i =>
              readLE chunk (18 + n * 12 + 2 * i) 2).map fun id => qtyDict.getD id 0
            Sides := (List.range n).map fun i =>
              if Nat.testBit (readLE (chunk.drop pSide) (i / 8) 1) (i % 8) then 1 else -1
            Matches := if hasMatches
              then (List.range n).map fun i => readLE chunk (18 + n * 14 + 2 * i) 2
              else List.replicate n 1 }

/-- One chunk decode at footer offset `off`: the 18-byte bound, the chunk
header fields, the legacy (no match-count array) record-size probe, then the
array phase. -/
def decodeChunk (rawBlob : List ℕ) (qtyDict : List ℚ) (off : ℕ) :
    Except DecErr DayColumns :=
  if off + 18 > rawBlob.length then .error .corrupt
  else
    let chunk := rawBlob.drop off
    let n := readLE chunk 0 2
    let baseT := toSigned 64 (readLE chunk 2 8)
    let baseP := toSigned 64 (readLE chunk 10 8)
    let pSide0 := 18 + n * 4 + n * 8 + n * 2 + n * 2
    if pSide0 > chunk.length then
      if 18 + n * 4 + n * 8 + n * 2 ≤ chunk.length then
        decodeChunkBody chunk qtyDict n baseT baseP false (18 + n * 4 + n * 8 + n * 2)
      else .error .corrupt
    else decodeChunkBody chunk qtyDict n baseT baseP true pSide0

/-- Decode every chunk of the footer's offset table in order, appending into
the accumulated columns. -/
def inflateChunks (rawBlob : List ℕ) (qtyDict : List ℚ) :
    List ℕ → DayColumns → Except DecErr DayColumns
  | [], cols => .ok cols
  | off :: rest, cols =>
    match decodeChunk rawBlob qtyDict off with
    | .error e => .error e
    | .ok part => inflateChunks rawBlob qtyDict rest (cols.append part)

/-- The footer region of a GNC blob, from the header's footer offset on. -/
def gncDictBlob (rawBlob : List ℕ) : List ℕ := rawBlob.drop (readLE rawBlob 24 8)

/-- The quantity dictionary parsed from the footer, each raw uint64 entry
descaled by the fixed quantity scale. -/
def gncQtyDict (rawBlob : List ℕ) : List ℚ :=
  (List.range (readLE (gncDictBlob rawBlob) 0 4)).map
    fun i => (readLE (gncDictBlob rawBlob) (4 + 8 * i) 8 : ℚ) / QtScale

/-- The chunk-offset table parsed from the footer, after the dictionary. -/
def gncChunkOffsets (rawBlob : List ℕ) : List ℕ :=
  (List.range (readLE (gncDictBlob rawBlob) (4 + 8 * readLE (gncDictBlob rawBlob) 0 4) 4)).map
    fun i =>
      readLE (gncDictBlob rawBlob) (4 + 8 * readLE (gncDictBlob rawBlob) 0 4 + 4 + 4 * i) 4

/-- `inflateGNCToColumns` of the shared decoder: header and magic checks,
the empty-day fast path, footer parsing (quantity dictionary and chunk
offset table, every count bounds-checked first), then the chunk loop.
Returns the row count (the decoded price-column length) and the columns. -/
def inflateGNCToColumns (rawBlob : List ℕ) : Except DecErr (ℕ × DayColumns) :=
  if rawBlob.length < 32 then .error .corrupt
  else if readLE rawBlob 0 4 ≠ bytesToNat gncMagic then .error .corrupt
  else if readLE rawBlob 4 4 = 0 then .ok (0, DayColumns.empty)
  else
    let footerOffset := readLE rawBlob 24 8
    if footerOffset ≥ rawBlob.length then .error .corrupt
    else
      let dictBlob := gncDictBlob rawBlob
      if dictBlob.length < 4 then .error .corrupt
      else
        let dictCount := readLE dictBlob 0 4
        if 4 + dictCount * 8 + 4 > dictBlob.length then .error .corrupt
        else
          let ptr := 4 + 8 * dictCount
          if dictBlob.length < ptr + 4 then .error .corrupt
          else
            let chunkCount := readLE dictBlob ptr 4
            if ptr + 4 + chunkCount * 4 > dictBlob.length then .error .corrupt
            else
              match inflateChunks rawBlob (gncQtyDict rawBlob) (gncChunkOffsets rawBlob)
                  DayColumns.empty with
              | .error e => .error e
              | .ok cols => .ok (cols.Prices.length, cols)

/-! ## TBV1 zero-copy view (parseTBHeader / mapTradeBlock) -/

/-- The read-eligibility validation of one index entry in `loadDayColumns`
(offset and length as the uint64 index fields, `size` the data file's size):
the zero-length probe result, the int64 casts, the wrapped int64 sum bound
against the file size, and the 512MB sanity cap. `true` means the entry is
accepted and the blob bytes are then read. -/
def loadDayEntryOk (offset length : ℕ) (size : ℤ) : Bool :=
  if length = 0 then false
  else
    let off64 := toSigned 64 offset
    let len64 := toSigned 64 length
    if off64 < 0 ∨ len64 ≤ 0 ∨ wrap64 (off64 + len64) > size then false
    else if len64 > 512 * 1024 * 1024 then false
    else true

/-- The per-entry validation of the probe's `validateMonth` (a `true` entry
is then read and its blob header checked): the minimum blob length, then the
int64 bounds test with Go's wrapping sum. -/
def validateMonthEntryOk (offset length : ℕ) (size : ℤ) : Bool :=
  let off64 := toSigned 64 offset
  let len64 := toSigned 64 length
  if len64 < 32 then false
  else if off64 < 0 ∨ len64 < 0 ∨ wrap64 (off64 + len64) > size then false
  else true

/-! ## Supporting lemmas on the machine-integer primitives -/

lemma toSigned64_of_lt (n : ℕ) (h : n < 2 ^ 63) : toSigned 64 n = (n : ℤ) := by
  have h64 : n < 2 ^ 64 := lt_trans h (by norm_num)
  unfold toSigned
  rw [Nat.mod_eq_of_lt h64]
  rw [if_pos]
  exact h

lemma wrap64_eq_self (x : ℤ) (h1 : -(2 ^ 63) ≤ x) (h2 : x < 2 ^ 63) : wrap64 x = x := by
  unfold wrap64
  have h0 : (0 : ℤ) ≤ x + 2 ^ 63 := by linarith
  have hlt : x + 2 ^ 63 < 2 ^ 64 := by norm_num at h2 ⊢; linarith
  rw [Int.emod_eq_of_lt h0 hlt]
  ring

/-! ## Claim C7: degenerate input to the single-pass accumulator -/

/-- Claim C7: for input arrays with `len(sig) < 2`, `CalcMoments` of the
single-pass metrics unit returns the zero `Moments` value. -/
theorem C7_calcmoments_degenerate (sig ret : List ℚ) (h : sig.length < 2) :
    V0.CalcMoments sig ret = V0.Moments.zero := by
  unfold V0.CalcMoments
  rw [if_pos h]

/-- Witness for C7 at the one-element input. -/
theorem C7_calcmoments_degenerate_witness :
    V0.CalcMoments [5] [7] = V0.Moments.zero :=
  C7_calcmoments_degenerate [5] [7] (by decide)

/-! ## Claim C2: a crafted blob on which the decoder runs out of bounds -/

/-- A 62-byte GNC blob whose single chunk is exactly the last 18 bytes of
the buffer with a zero chunk row count: the magic, header, footer and all
declared counts validate, but the decoder then takes the address of
`chunk[18]` in an 18-byte chunk. -/
def blob62 : List ℕ :=
  [71, 78, 67, 50, 1, 0, 0, 0] ++ List.replicate 16 0 ++ [32, 0, 0, 0, 0, 0, 0, 0] ++
  [0, 0, 0, 0] ++ [1, 0, 0, 0] ++ [44, 0, 0, 0] ++ List.replicate 18 0

/-- Claim C2 (failing input): on `blob62` the decoder reaches a bounds
violation (`oob`, Go's index-out-of-range abort) instead of returning the
`(0, false)` failure result. -/
theorem C2_decoder_oob : inflateGNCToColumns blob62 = .error .oob := by rfl

/-! ## Claim C9: index-entry bounds validation -/

/-- Claim C9 (amended): whenever `offset + length` cannot wrap in int64
arithmetic, both validators reject an entry whose byte range does not lie
inside the data file (zero length or end past the file size) before any
blob bytes are read. -/
theorem C9_index_bounds (offset length : ℕ) (size : ℤ)
    (hnw : offset + length < 2 ^ 63)
    (hout : length = 0 ∨ size < (offset : ℤ) + (length : ℤ)) :
    loadDayEntryOk offset length size = false ∧
    validateMonthEntryOk offset length size = false := by
  have hoff : offset < 2 ^ 63 := by omega
  have hlen : length < 2 ^ 63 := by omega
  have h1 : toSigned 64 offset = (offset : ℤ) := toSigned64_of_lt _ hoff
  have h2 : toSigned 64 length = (length : ℤ) := toSigned64_of_lt _ hlen
  have h3 : wrap64 ((offset : ℤ) + (length : ℤ)) = (offset : ℤ) + (length : ℤ) := by
    apply wrap64_eq_self
    · have h0 : (0 : ℤ) ≤ (offset : ℤ) + (length : ℤ) := by positivity
      linarith
    · push_cast
      exact_mod_cast hnw
  by_cases h0 : length = 0
  · subst h0
    constructor
    · simp [loadDayEntryOk]
    · unfold validateMonthEntryOk
      simp only [h2]
      rw [if_pos]
      norm_num
  · have hgt : size < (offset : ℤ) + (length : ℤ) := by
      rcases hout with h | h
      · exact absurd h h0
      · exact h
    constructor
    · unfold loadDayEntryOk
      rw [if_neg h0]
      simp only [h1, h2, h3]
      rw [if_pos]
      exact Or.inr (Or.inr (by linarith))
    · unfold validateMonthEntryOk
      simp only [h1, h2, h3]
      by_cases hl32 : ((length : ℤ) : ℤ) < 32
      · rw [if_pos hl32]
      · rw [if_neg hl32, if_pos]
        exact Or.inr (Or.inr (by linarith))

/-- Claim C9 (counterexample to the claim as stated): the entry with
offset `2^63 - 1` and length 1 lies outside a 90-byte file, yet
`loadDayColumns` accepts it (the int64 sum wraps negative) and proceeds to
the read. -/
theorem C9_index_bounds_cex :
    loadDayEntryOk (2 ^ 63 - 1) 1 90 = true ∧
      (90 : ℤ) < ((2 ^ 63 - 1 : ℕ) : ℤ) + (1 : ℤ) := by
  constructor
  · decide
  · norm_num

/-- Witness for C9: the spec's concrete example, offset 100 and length 50
against a 90-byte data file, is rejected by both validators. -/
theorem C9_index_bounds_witness :
    loadDayEntryOk 100 50 90 = false ∧ validateMonthEntryOk 100 50 90 = false :=
  C9_index_bounds 100 50 90 (by norm_num) (Or.inr (by norm_num))

/-! ## Claim C4: degenerate guards in the finalizer -/

/-- A `Moments` with two observations, every variance denominator zero, and
a recorded maximal run length of 3. -/
def mC4 : Moments := { Moments.zero with Count := 2, SegLenMax := 3 }

/-- Claim C4 (counterexample to the claim as stated): `mC4` has every
variance denominator non-positive, yet `FinalizeMetrics` returns its
`MaxSegLen` as 3, not 0 — the max-run-length field is passed through
unguarded. -/
theorem C4_finalize_guards_cex :
    (denX mC4 ≤ 0 ∧ denY mC4 ≤ 0 ∧ varPnLOf mC4 ≤ 0 ∧ varSigOf mC4 ≤ 0 ∧
      varAbsOf mC4 ≤ 0) ∧
    (FinalizeMetrics (fun _ => 0) mC4 []).MaxSegLen ≠ 0 := by
  norm_num [denX, denY, varPnLOf, varSigOf, varAbsOf, mC4, Moments.zero, FinalizeMetrics]

/-- Claim C4 (amended): a count of at most 1 zeroes every derived metric;
for larger counts each guarded metric is exactly 0 whenever its own
denominator (or trial count) is non-positive or at most the 1e-18 cutoff,
while the max run length is passed through from the accumulator. -/
theorem C4_finalize_guards (sq : ℚ → ℚ) (m : Moments) (ics : List ℚ) :
    (m.Count ≤ 1 →
      FinalizeMetrics sq m ics =
        { Count := ratTrunc m.Count, ICPearson := 0, IC_TStat := 0, Sharpe := 0,
          HitRate := 0, BreakevenBps := 0, AutoCorr := 0, AutoCorrAbs := 0,
          AvgSegLen := 0, MaxSegLen := 0 }) ∧
    (¬(denX m > 0 ∧ denY m > 0) → (FinalizeMetrics sq m ics).ICPearson = 0) ∧
    (varPnLOf m ≤ eps18 → (FinalizeMetrics sq m ics).Sharpe = 0) ∧
    (m.ValidHits ≤ 0 → (FinalizeMetrics sq m ics).HitRate = 0) ∧
    (m.SumAbsDeltaSig ≤ eps18 → (FinalizeMetrics sq m ics).BreakevenBps = 0) ∧
    (varSigOf m ≤ eps18 → (FinalizeMetrics sq m ics).AutoCorr = 0) ∧
    (varAbsOf m ≤ eps18 → (FinalizeMetrics sq m ics).AutoCorrAbs = 0) ∧
    (m.SegCount ≤ 0 → (FinalizeMetrics sq m ics).AvgSegLen = 0) ∧
    (ics.length ≤ 1 ∨ icsVariance ics ≤ eps18 → (FinalizeMetrics sq m ics).IC_TStat = 0) ∧
    (1 < m.Count → (FinalizeMetrics sq m ics).MaxSegLen = m.SegLenMax) := by
  by_cases hc : m.Count ≤ 1
  · unfold FinalizeMetrics
    rw [if_pos hc]
    exact ⟨fun _ => rfl, fun _ => rfl, fun _ => rfl, fun _ => rfl, fun _ => rfl,
      fun _ => rfl, fun _ => rfl, fun _ => rfl, fun _ => rfl,
      fun h => absurd h (not_lt.mpr hc)⟩
  · unfold FinalizeMetrics
    rw [if_neg hc]
    refine ⟨fun h => absurd h hc, ?_, ?_, ?_, ?_, ?_, ?_, ?_, ?_, fun _ => rfl⟩
    · intro h
      dsimp only
      rw [if_neg h]
    · intro h
      dsimp only
      rw [if_neg (not_lt.mpr h)]
    · intro h
      dsimp only
      rw [if_neg (not_lt.mpr h)]
    · intro h
      dsimp only
      rw [if_neg (not_lt.mpr h)]
    · intro h
      dsimp only
      rw [if_neg (not_lt.mpr h)]
    · intro h
      dsimp only
      rw [if_neg (fun hh => absurd hh.2 (not_lt.mpr h))]
    · intro h
      dsimp only
      rw [if_neg (not_lt.mpr h)]
    · intro h
      dsimp only
      rcases h with h | h
      · rw [if_neg (not_lt.mpr h)]
      · by_cases hl : ics.length > 1
        · rw [if_pos hl, if_neg (not_lt.mpr h)]
        · rw [if_neg hl]

/-- Witness for C4 at the zero aggregate. -/
theorem C4_finalize_guards_witness :
    FinalizeMetrics (fun _ => 0) Moments.zero [] =
      { Count := ratTrunc Moments.zero.Count, ICPearson := 0, IC_TStat := 0,
        Sharpe := 0, HitRate := 0, BreakevenBps := 0, AutoCorr := 0,
        AutoCorrAbs := 0, AvgSegLen := 0, MaxSegLen := 0 } :=
  (C4_finalize_guards (fun _ => 0) Moments.zero []).1 (by norm_num [Moments.zero])

/-! ## Claim C6: the concrete finalizer example -/

/-- Claim C6: on signal `[1, 1, 1, -1, -1]` and return
`[0.01, 0.01, 0.01, -0.01, -0.01]`, the finalized metrics have Pearson IC
exactly 1, hit rate exactly 1 and strictly positive breakeven bps; the
abstract square root is pinned to its exact value `6/25` at the one point
where the formula consults it. -/
theorem C6_concrete_example (sq : ℚ → ℚ) (hsq : sq (36 / 625) = 6 / 25) :
    (FinalizeMetrics sq (CalcMomentsVectors [1, 1, 1, -1, -1]
      [1 / 100, 1 / 100, 1 / 100, -1 / 100, -1 / 100]) []).ICPearson = 1 ∧
    (FinalizeMetrics sq (CalcMomentsVectors [1, 1, 1, -1, -1]
      [1 / 100, 1 / 100, 1 / 100, -1 / 100, -1 / 100]) []).HitRate = 1 ∧
    (FinalizeMetrics sq (CalcMomentsVectors [1, 1, 1, -1, -1]
      [1 / 100, 1 / 100, 1 / 100, -1 / 100, -1 / 100]) []).BreakevenBps > 0 := by
  have hm : CalcMomentsVectors [1, 1, 1, -1, -1]
      [1 / 100, 1 / 100, 1 / 100, -1 / 100, -1 / 100] =
      ⟨5, 1, 1 / 100, 1 / 20, 5, 1 / 2000, 1 / 20, 1 / 2000, 5, 5, 2, 2, 5, 4, 2, 5, 3⟩ := by
    norm_num [CalcMomentsVectors, loop1, loop2, loop2Aux, segClose, Loop2.init, loop1Step,
      loop2Step]
  rw [hm]
  unfold FinalizeMetrics
  rw [if_neg (by norm_num)]
  dsimp only
  refine ⟨?_, ?_, ?_⟩
  · rw [if_pos (by norm_num [denX, denY])]
    have h36 : denX ⟨5, 1, 1 / 100, 1 / 20, 5, 1 / 2000, 1 / 20, 1 / 2000, 5, 5, 2, 2,
        5, 4, 2, 5, 3⟩ * denY ⟨5, 1, 1 / 100, 1 / 20, 5, 1 / 2000, 1 / 20, 1 / 2000,
        5, 5, 2, 2, 5, 4, 2, 5, 3⟩ = 36 / 625 := by
      norm_num [denX, denY]
    rw [h36, hsq]
    norm_num [pearsonNum]
  · rw [if_pos (by norm_num)]
    norm_num
  · rw [if_pos (by norm_num [eps18])]
    norm_num

/-- Witness for C6 with the constant square-root function at `6/25`. -/
theorem C6_concrete_example_witness :
    (FinalizeMetrics (fun _ => 6 / 25) (CalcMomentsVectors [1, 1, 1, -1, -1]
      [1 / 100, 1 / 100, 1 / 100, -1 / 100, -1 / 100]) []).ICPearson = 1 ∧
    (FinalizeMetrics (fun _ => 6 / 25) (CalcMomentsVectors [1, 1, 1, -1, -1]
      [1 / 100, 1 / 100, 1 / 100, -1 / 100, -1 / 100]) []).HitRate = 1 ∧
    (FinalizeMetrics (fun _ => 6 / 25) (CalcMomentsVectors [1, 1, 1, -1, -1]
      [1 / 100, 1 / 100, 1 / 100, -1 / 100, -1 / 100]) []).BreakevenBps > 0 :=
  C6_concrete_example (fun _ => 6 / 25) rfl

/-! ## Claim C3: the partition law of the accumulator (counterexample part) -/

/-- Claim C3 (counterexample to the claim as stated): splitting the series
`([1, 1], [1, 1])` into its two single-element halves and merging with
`Moments.Add` loses the cross-boundary lag product (an additive field) and
the cross-boundary run (the max-combined field). -/
theorem C3_moments_merge_cex :
    ((CalcMomentsVectors [1] [1]).Add (CalcMomentsVectors [1] [1])).SumProdLag ≠
      (CalcMomentsVectors [1, 1] [1, 1]).SumProdLag ∧
    ((CalcMomentsVectors [1] [1]).Add (CalcMomentsVectors [1] [1])).SegLenMax ≠
      (CalcMomentsVectors [1, 1] [1, 1]).SegLenMax := by
  norm_num [CalcMomentsVectors, loop1, loop2, loop2Aux, segClose, Loop2.init, loop1Step,
    loop2Step, Moments.Add]

/-! ## Claim C10: decoded-columns invariant -/

lemma runningSums_length (l : List ℤ) : ∀ base, (runningSums base l).length = l.length := by
  induction l with
  | nil => intro base; rfl
  | cons d ds ih => intro base; simp [runningSums, ih]

/-- The sum of the per-chunk row counts read at the footer's chunk offsets. -/
def chunkCountsSum (rawBlob : List ℕ) (offs : List ℕ) : ℕ :=
  (offs.map fun off => readLE (rawBlob.drop off) 0 2).sum

lemma decodeChunkBody_lengths (chunk : List ℕ) (qtyDict : List ℚ) (n : ℕ)
    (baseT baseP : ℤ) (hm : Bool) (pSide : ℕ) (part : DayColumns)
    (h : decodeChunkBody chunk qtyDict n baseT baseP hm pSide = .ok part) :
    part.Times.length = n ∧ part.Prices.length = n ∧ part.Qtys.length = n ∧
    part.Sides.length = n ∧ part.Matches.length = n := by
  unfold decodeChunkBody at h
  repeat' split at h
  all_goals
    first
    | exact Except.noConfusion h
    | (injection h with h'
       subst h'
       refine ⟨?_, ?_, ?_, ?_, ?_⟩ <;> simp [runningSums_length])

lemma decodeChunk_lengths (rawBlob : List ℕ) (qtyDict : List ℚ) (off : ℕ)
    (part : DayColumns) (h : decodeChunk rawBlob qtyDict off = .ok part) :
    part.Times.length = readLE (rawBlob.drop off) 0 2 ∧
    part.Prices.length = readLE (rawBlob.drop off) 0 2 ∧
    part.Qtys.length = readLE (rawBlob.drop off) 0 2 ∧
    part.Sides.length = readLE (rawBlob.drop off) 0 2 ∧
    part.Matches.length = readLE (rawBlob.drop off) 0 2 := by
  unfold decodeChunk at h
  dsimp only at h
  repeat' split at h
  all_goals
    first
    | exact Except.noConfusion h
    | exact decodeChunkBody_lengths _ _ _ _ _ _ _ _ h

lemma inflateChunks_lengths (rawBlob : List ℕ) (qtyDict : List ℚ) :
    ∀ (offs : List ℕ) (cols res : DayColumns),
      inflateChunks rawBlob qtyDict offs cols = .ok res →
      res.Times.length = cols.Times.length + chunkCountsSum rawBlob offs ∧
      res.Prices.length = cols.Prices.length + chunkCountsSum rawBlob offs ∧
      res.Qtys.length = cols.Qtys.length + chunkCountsSum rawBlob offs ∧
      res.Sides.length = cols.Sides.length + chunkCountsSum rawBlob offs ∧
      res.Matches.length = cols.Matches.length + chunkCountsSum rawBlob offs := by
  intro offs
  induction offs with
  | nil =>
    intro cols res h
    injection h with h'
    subst h'
    simp [chunkCountsSum]
  | cons off rest ih =>
    intro cols res h
    unfold inflateChunks at h
    cases hd : decodeChunk rawBlob qtyDict off with
    | error e => rw [hd] at h; simp at h
    | ok part =>
      rw [hd] at h
      obtain ⟨t1, t2, t3, t4, t5⟩ := decodeChunk_lengths _ _ _ _ hd
      obtain ⟨u1, u2, u3, u4, u5⟩ := ih (cols.append part) res h
      simp only [DayColumns.append, List.length_append] at u1 u2 u3 u4 u5
      have hs : chunkCountsSum rawBlob (off :: rest) =
          readLE (rawBlob.drop off) 0 2 + chunkCountsSum rawBlob rest := by
        simp [chunkCountsSum]
      refine ⟨?_, ?_, ?_, ?_, ?_⟩ <;> omega

/-- A structurally valid 62-byte GNC blob whose header claims 5 rows while
its single chunk carries 0 rows: the decoder accepts it. -/
def blobNoXCheck : List ℕ :=
  [71, 78, 67, 50, 5, 0, 0, 0] ++ List.replicate 16 0 ++ [50, 0, 0, 0, 0, 0, 0, 0] ++
  List.replicate 18 0 ++ [0, 0, 0, 0] ++ [1, 0, 0, 0] ++ [32, 0, 0, 0]

/-- Claim C10: on every successful decode the five column lists have equal
length, equal to the returned row count, which (on the footer path) is the
sum of the per-chunk counts of the footer's chunk-offset table; and the
header's row-count field is not cross-checked — the concrete blob
`blobNoXCheck` declares 5 rows, decodes 0, and still succeeds. -/
theorem C10_decode_lengths :
    (∀ (blob : List ℕ) (cnt : ℕ) (cols : DayColumns),
      inflateGNCToColumns blob = .ok (cnt, cols) →
      cols.Times.length = cnt ∧ cols.Prices.length = cnt ∧ cols.Qtys.length = cnt ∧
      cols.Sides.length = cnt ∧ cols.Matches.length = cnt ∧
      (readLE blob 4 4 ≠ 0 → cnt = chunkCountsSum blob (gncChunkOffsets blob))) ∧
    inflateGNCToColumns blobNoXCheck = .ok (0, DayColumns.empty) ∧
    readLE blobNoXCheck 4 4 = 5 := by
  refine ⟨?_, by rfl, by rfl⟩
  intro blob cnt cols h
  unfold inflateGNCToColumns at h
  split_ifs at h with h1 h2 h3
  · simp only [Except.ok.injEq, Prod.mk.injEq] at h
    obtain ⟨ha, hb⟩ := h
    subst hb
    refine ⟨by simp [← ha, DayColumns.empty], by simp [← ha, DayColumns.empty],
      by simp [← ha, DayColumns.empty], by simp [← ha, DayColumns.empty],
      by simp [← ha, DayColumns.empty], fun hc => absurd h3 hc⟩
  · dsimp only at h
    repeat' split at h
    all_goals
      first
      | exact Except.noConfusion h
      | (rename_i res heq
         injection h with h'
         injection h' with ha hb
         subst hb
         obtain ⟨u1, u2, u3, u4, u5⟩ :=
           inflateChunks_lengths blob (gncQtyDict blob) (gncChunkOffsets blob)
             DayColumns.empty res heq
         simp only [DayColumns.empty, List.length_nil, Nat.zero_add] at u1 u2 u3 u4 u5
         exact ⟨by omega, by omega, by omega, by omega, by omega, fun _ => by omega⟩)


/-! ## Claim C8: TBV1 zero-copy view validation -/

lemma readLE_append_left (a b : List ℕ) (i w : ℕ) (h : i + w ≤ a.length) :
    readLE (a ++ b) i w = readLE a i w := by
  unfold readLE
  rw [List.drop_append_eq_append_drop]
  rw [List.take_append_of_le_length]
  simp only [List.length_drop]
  omega

instance instDecidableEqExcept {E A : Type} [DecidableEq E] [DecidableEq A] :
    DecidableEq (Except E A) := fun a b =>
  match a, b with
  | .error e, .error f =>
    if h : e = f then .isTrue (by rw [h]) else .isFalse (fun hh => h (Except.error.inj hh))
  | .ok x, .ok y =>
    if h : x = y then .isTrue (by rw [h]) else .isFalse (fun hh => h (Except.ok.inj hh))
  | .error e, .ok x => .isFalse (fun hh => Except.noConfusion hh)
  | .ok x, .error e => .isFalse (fun hh => Except.noConfusion hh)

/-- The number of agreeing-sign hits among the pairs (the `hits` counter of
loop 2, which inspects only the current pair). -/
def hitsCount : List (ℚ × ℚ) → ℚ
  | [] => 0
  | p :: rest =>
    (if p.1 ≠ 0 ∧ p.2 ≠ 0 ∧ ((p.1 > 0 ∧ p.2 > 0) ∨ (p.1 < 0 ∧ p.2 < 0)) then 1 else 0) +
      hitsCount rest

/-- The number of pairs with both entries nonzero (the `validHits` counter). -/
def validHitsCount : List (ℚ × ℚ) → ℚ
  | [] => 0
  | p :: rest => (if p.1 ≠ 0 ∧ p.2 ≠ 0 then 1 else 0) + validHitsCount rest

/-- Field-wise sum of two loop-1 accumulators. -/
def Loop1.add (a b : Loop1) : Loop1 :=
  ⟨a.sumSig + b.sumSig, a.sumRet + b.sumRet, a.sumProd + b.sumProd,
   a.sumSqSig + b.sumSqSig, a.sumSqRet + b.sumSqRet, a.sumPnL + b.sumPnL,
   a.sumSqPnL + b.sumSqPnL, a.sumAbsSig + b.sumAbsSig⟩

/-- The merge of the per-part accumulators: fold `Moments.Add` over the
`CalcMomentsVectors` results of the parts, starting from `Moments{}`. -/
def mergedMoments (parts : List (List ℚ × List ℚ)) : Moments :=
  parts.foldl (fun acc pr => acc.Add (CalcMomentsVectors pr.1 pr.2)) Moments.zero

/-- The whole signal series of a partition: concatenation of the parts. -/
def wholeSigs (parts : List (List ℚ × List ℚ)) : List ℚ := (parts.map Prod.fst).flatten

/-- The whole return series of a partition: concatenation of the parts. -/
def wholeRets (parts : List (List ℚ × List ℚ)) : List ℚ := (parts.map Prod.snd).flatten

lemma iteMaxQ (a b : ℚ) : (if b > a then b else a) = max a b := by
  split_ifs with h
  · exact (max_eq_right h.le).symm
  · exact (max_eq_left (not_lt.mp h)).symm

lemma momentsAdd_assoc (a b c : Moments) : (a.Add b).Add c = a.Add (b.Add c) := by
  unfold Moments.Add
  simp only [iteMaxQ, Moments.mk.injEq]
  refine ⟨by ring, by ring, by ring, by ring, by ring, by ring, by ring, by ring, by ring,
    by ring, by ring, by ring, by ring, by ring, by ring, by ring, max_assoc _ _ _⟩

lemma momentsAdd_comm (a b : Moments) : a.Add b = b.Add a := by
  unfold Moments.Add
  simp only [iteMaxQ, Moments.mk.injEq]
  refine ⟨by ring, by ring, by ring, by ring, by ring, by ring, by ring, by ring, by ring,
    by ring, by ring, by ring, by ring, by ring, by ring, by ring, max_comm _ _⟩

lemma loop1_shift : ∀ (ps : List (ℚ × ℚ)) (a : Loop1),
    ps.foldl loop1Step a = Loop1.add a (loop1 ps) := by
  intro ps
  induction ps with
  | nil =>
    intro a
    cases a
    simp [loop1, Loop1.add]
  | cons p rest ih =>
    intro a
    have h1 : (p :: rest).foldl loop1Step a = rest.foldl loop1Step (loop1Step a p) := rfl
    have h2 : loop1 (p :: rest)
        = rest.foldl loop1Step (loop1Step ⟨0, 0, 0, 0, 0, 0, 0, 0⟩ p) := rfl
    rw [h1, ih, h2, ih]
    obtain ⟨b1, b2, b3, b4, b5, b6, b7, b8⟩ := loop1 rest
    cases a
    simp only [Loop1.add, loop1Step, Loop1.mk.injEq]
    refine ⟨by ring, by ring, by ring, by ring, by ring, by ring, by ring, by ring⟩

lemma loop1_append (xs ys : List (ℚ × ℚ)) :
    loop1 (xs ++ ys) = Loop1.add (loop1 xs) (loop1 ys) := by
  have h : loop1 (xs ++ ys) = ys.foldl loop1Step (loop1 xs) := by
    simp [loop1, List.foldl_append]
  rw [h, loop1_shift]

lemma hitsCount_append (a b : List (ℚ × ℚ)) :
    hitsCount (a ++ b) = hitsCount a + hitsCount b := by
  induction a with
  | nil => simp [hitsCount]
  | cons p rest ih => simp only [List.cons_append, hitsCount, List.append_eq, ih]; ring

lemma validHitsCount_append (a b : List (ℚ × ℚ)) :
    validHitsCount (a ++ b) = validHitsCount a + validHitsCount b := by
  induction a with
  | nil => simp [validHitsCount]
  | cons p rest ih => simp only [List.cons_append, validHitsCount, List.append_eq, ih]; ring

lemma loop2Step_hits (st : Loop2) (b : Bool) (p : ℚ × ℚ) :
    (loop2Step st b p).hits = st.hits +
      (if p.1 ≠ 0 ∧ p.2 ≠ 0 ∧ ((p.1 > 0 ∧ p.2 > 0) ∨ (p.1 < 0 ∧ p.2 < 0)) then 1 else 0) := by
  dsimp only [loop2Step]
  split_ifs with h
  · ring
  · ring

lemma loop2Step_validHits (st : Loop2) (b : Bool) (p : ℚ × ℚ) :
    (loop2Step st b p).validHits = st.validHits +
      (if p.1 ≠ 0 ∧ p.2 ≠ 0 then 1 else 0) := by
  dsimp only [loop2Step]
  split_ifs with h
  · ring
  · ring

lemma loop2Aux_hits : ∀ (ps : List (ℚ × ℚ)) (st : Loop2),
    (loop2Aux st ps).hits = st.hits + hitsCount ps := by
  intro ps
  induction ps with
  | nil => intro st; simp [loop2Aux, hitsCount]
  | cons p rest ih =>
    intro st
    have h1 : loop2Aux st (p :: rest) = loop2Aux (loop2Step st false p) rest := rfl
    rw [h1, ih, loop2Step_hits]
    simp only [hitsCount]
    ring

lemma loop2Aux_validHits : ∀ (ps : List (ℚ × ℚ)) (st : Loop2),
    (loop2Aux st ps).validHits = st.validHits + validHitsCount ps := by
  intro ps
  induction ps with
  | nil => intro st; simp [loop2Aux, validHitsCount]
  | cons p rest ih =>
    intro st
    have h1 : loop2Aux st (p :: rest) = loop2Aux (loop2Step st false p) rest := rfl
    rw [h1, ih, loop2Step_validHits]
    simp only [validHitsCount]
    ring

lemma segClose_hits (st : Loop2) : (segClose st).hits = st.hits := by
  unfold segClose
  split_ifs <;> rfl

lemma segClose_validHits (st : Loop2) : (segClose st).validHits = st.validHits := by
  unfold segClose
  split_ifs <;> rfl

lemma loop2_hits (ps : List (ℚ × ℚ)) : (loop2 ps).hits = hitsCount ps := by
  cases ps with
  | nil => rfl
  | cons p rest =>
    have h1 : loop2 (p :: rest) = loop2Aux (loop2Step Loop2.init true p) rest := rfl
    rw [h1, loop2Aux_hits, loop2Step_hits]
    simp only [hitsCount, Loop2.init]
    ring

lemma loop2_validHits (ps : List (ℚ × ℚ)) : (loop2 ps).validHits = validHitsCount ps := by
  cases ps with
  | nil => rfl
  | cons p rest =>
    have h1 : loop2 (p :: rest) = loop2Aux (loop2Step Loop2.init true p) rest := rfl
    rw [h1, loop2Aux_validHits, loop2Step_validHits]
    simp only [validHitsCount, Loop2.init]
    ring

lemma CMV_Count (s r : List ℚ) (h : s.length = r.length) :
    (CalcMomentsVectors s r).Count = ((s.zip r).length : ℚ) := by
  unfold CalcMomentsVectors
  split_ifs with h0
  · obtain rfl := List.length_eq_zero.mp h0
    rfl
  · have : (s.zip r).length = s.length := by rw [List.length_zip, h, min_self]
    rw [this]

lemma CMV_SumSig (s r : List ℚ) :
    (CalcMomentsVectors s r).SumSig = (loop1 (s.zip r)).sumSig := by
  unfold CalcMomentsVectors
  split_ifs with h0
  · obtain rfl := List.length_eq_zero.mp h0
    rfl
  · rfl

lemma CMV_SumRet (s r : List ℚ) :
    (CalcMomentsVectors s r).SumRet = (loop1 (s.zip r)).sumRet := by
  unfold CalcMomentsVectors
  split_ifs with h0
  · obtain rfl := List.length_eq_zero.mp h0
    rfl
  · rfl

lemma CMV_SumProd (s r : List ℚ) :
    (CalcMomentsVectors s r).SumProd = (loop1 (s.zip r)).sumProd := by
  unfold CalcMomentsVectors
  split_ifs with h0
  · obtain rfl := List.length_eq_zero.mp h0
    rfl
  · rfl

lemma CMV_SumSqSig (s r : List ℚ) :
    (CalcMomentsVectors s r).SumSqSig = (loop1 (s.zip r)).sumSqSig := by
  unfold CalcMomentsVectors
  split_ifs with h0
  · obtain rfl := List.length_eq_zero.mp h0
    rfl
  · rfl

lemma CMV_SumSqRet (s r : List ℚ) :
    (CalcMomentsVectors s r).SumSqRet = (loop1 (s.zip r)).sumSqRet := by
  unfold CalcMomentsVectors
  split_ifs with h0
  · obtain rfl := List.length_eq_zero.mp h0
    rfl
  · rfl

lemma CMV_SumPnL (s r : List ℚ) :
    (CalcMomentsVectors s r).SumPnL = (loop1 (s.zip r)).sumPnL := by
  unfold CalcMomentsVectors
  split_ifs with h0
  · obtain rfl := List.length_eq_zero.mp h0
    rfl
  · rfl

lemma CMV_SumSqPnL (s r : List ℚ) :
    (CalcMomentsVectors s r).SumSqPnL = (loop1 (s.zip r)).sumSqPnL := by
  unfold CalcMomentsVectors
  split_ifs with h0
  · obtain rfl := List.length_eq_zero.mp h0
    rfl
  · rfl

lemma CMV_SumAbsSig (s r : List ℚ) :
    (CalcMomentsVectors s r).SumAbsSig = (loop1 (s.zip r)).sumAbsSig := by
  unfold CalcMomentsVectors
  split_ifs with h0
  · obtain rfl := List.length_eq_zero.mp h0
    rfl
  · rfl

lemma CMV_Hits (s r : List ℚ) :
    (CalcMomentsVectors s r).Hits = hitsCount (s.zip r) := by
  unfold CalcMomentsVectors
  split_ifs with h0
  · obtain rfl := List.length_eq_zero.mp h0
    rfl
  · show (segClose (loop2 (s.zip r))).hits = hitsCount (s.zip r)
    rw [segClose_hits, loop2_hits]

lemma CMV_ValidHits (s r : List ℚ) :
    (CalcMomentsVectors s r).ValidHits = validHitsCount (s.zip r) := by
  unfold CalcMomentsVectors
  split_ifs with h0
  · obtain rfl := List.length_eq_zero.mp h0
    rfl
  · show (segClose (loop2 (s.zip r))).validHits = validHitsCount (s.zip r)
    rw [segClose_validHits, loop2_validHits]

lemma merged_foldl_shift (g : Moments → ℚ)
    (hg : ∀ a b : Moments, g (a.Add b) = g a + g b) (h0 : g Moments.zero = 0) :
    ∀ (l : List (List ℚ × List ℚ)) (m : Moments),
      g (l.foldl (fun acc pr => acc.Add (CalcMomentsVectors pr.1 pr.2)) m)
        = g m + g (mergedMoments l) := by
  intro l
  induction l with
  | nil =>
    intro m
    simp [mergedMoments, h0]
  | cons pr rest ih =>
    intro m
    have h1 : (pr :: rest).foldl (fun acc q => acc.Add (CalcMomentsVectors q.1 q.2)) m
        = rest.foldl (fun acc q => acc.Add (CalcMomentsVectors q.1 q.2))
            (m.Add (CalcMomentsVectors pr.1 pr.2)) := rfl
    have h2 : mergedMoments (pr :: rest)
        = rest.foldl (fun acc q => acc.Add (CalcMomentsVectors q.1 q.2))
            (Moments.zero.Add (CalcMomentsVectors pr.1 pr.2)) := rfl
    rw [h1, ih, h2, ih, hg, hg, h0]
    ring

lemma whole_len (parts : List (List ℚ × List ℚ))
    (h : ∀ pr ∈ parts, pr.1.length = pr.2.length) :
    (wholeSigs parts).length = (wholeRets parts).length := by
  induction parts with
  | nil => rfl
  | cons pr rest ih =>
    have hws : wholeSigs (pr :: rest) = pr.1 ++ wholeSigs rest := by
      simp [wholeSigs]
    have hwr : wholeRets (pr :: rest) = pr.2 ++ wholeRets rest := by
      simp [wholeRets]
    rw [hws, hwr, List.length_append, List.length_append,
      h pr (List.mem_cons_self _ _), ih (fun q hq => h q (List.mem_cons_of_mem _ hq))]

lemma merged_eq (g : Moments → ℚ) (G : List (ℚ × ℚ) → ℚ)
    (hg : ∀ a b : Moments, g (a.Add b) = g a + g b)
    (h0 : g Moments.zero = 0) (hG0 : G [] = 0)
    (hGapp : ∀ a b : List (ℚ × ℚ), G (a ++ b) = G a + G b)
    (hCMV : ∀ s r : List ℚ, s.length = r.length
      → g (CalcMomentsVectors s r) = G (s.zip r)) :
    ∀ parts : List (List ℚ × List ℚ), (∀ pr ∈ parts, pr.1.length = pr.2.length) →
      g (mergedMoments parts) = G ((wholeSigs parts).zip (wholeRets parts)) := by
  intro parts
  induction parts with
  | nil =>
    intro _
    have h1 : mergedMoments ([] : List (List ℚ × List ℚ)) = Moments.zero := rfl
    rw [h1, h0]
    exact hG0.symm
  | cons pr rest ih =>
    intro h
    have hpr : pr.1.length = pr.2.length := h pr (List.mem_cons_self _ _)
    have hrest : ∀ q ∈ rest, q.1.length = q.2.length :=
      fun q hq => h q (List.mem_cons_of_mem _ hq)
    have h2 : mergedMoments (pr :: rest)
        = rest.foldl (fun acc q => acc.Add (CalcMomentsVectors q.1 q.2))
            (Moments.zero.Add (CalcMomentsVectors pr.1 pr.2)) := rfl
    rw [h2, merged_foldl_shift g hg h0, hg, h0, ih hrest, hCMV pr.1 pr.2 hpr]
    have hws : wholeSigs (pr :: rest) = pr.1 ++ wholeSigs rest := by
      simp [wholeSigs]
    have hwr : wholeRets (pr :: rest) = pr.2 ++ wholeRets rest := by
      simp [wholeRets]
    rw [hws, hwr, List.zip_append hpr, hGapp]
    ring

/-- The number of pairs whose signal entry is nonzero (each such element
extends exactly one eventually-closed sign run). -/
def nonzeroSigCount : List (ℚ × ℚ) → ℚ
  | [] => 0
  | p :: rest => (if p.1 > 0 then 1 else if p.1 < 0 then 1 else 0) + nonzeroSigCount rest

lemma nonzeroSigCount_append (a b : List (ℚ × ℚ)) :
    nonzeroSigCount (a ++ b) = nonzeroSigCount a + nonzeroSigCount b := by
  induction a with
  | nil => simp [nonzeroSigCount]
  | cons p rest ih =>
    simp only [List.cons_append, nonzeroSigCount, List.append_eq, ih]
    ring

lemma loop2Step_seg (st : Loop2) (b : Bool) (p : ℚ × ℚ) (hc : 0 ≤ st.curSegLen) :
    0 ≤ (loop2Step st b p).curSegLen ∧
    (loop2Step st b p).segLenTotal + (loop2Step st b p).curSegLen
      = st.segLenTotal + st.curSegLen
        + (if p.1 > 0 then 1 else if p.1 < 0 then 1 else 0) := by
  dsimp only [loop2Step]
  split_ifs <;> dsimp only <;> constructor <;>
    first
      | linarith
      | ring1
      | (exfalso; push_neg at *; linarith)
      | (exfalso; simp_all)

lemma loop2Aux_seg : ∀ (ps : List (ℚ × ℚ)) (st : Loop2), 0 ≤ st.curSegLen →
    0 ≤ (loop2Aux st ps).curSegLen ∧
    (loop2Aux st ps).segLenTotal + (loop2Aux st ps).curSegLen
      = st.segLenTotal + st.curSegLen + nonzeroSigCount ps := by
  intro ps
  induction ps with
  | nil =>
    intro st hc
    refine ⟨hc, ?_⟩
    simp [loop2Aux, nonzeroSigCount]
  | cons p rest ih =>
    intro st hc
    have h1 : loop2Aux st (p :: rest) = loop2Aux (loop2Step st false p) rest := rfl
    obtain ⟨hstep, hsum⟩ := loop2Step_seg st false p hc
    obtain ⟨hrec, hrecsum⟩ := ih (loop2Step st false p) hstep
    rw [h1]
    refine ⟨hrec, ?_⟩
    rw [hrecsum, hsum]
    simp only [nonzeroSigCount]
    ring

lemma segClose_seg (st : Loop2) (hc : 0 ≤ st.curSegLen) :
    (segClose st).segLenTotal = st.segLenTotal + st.curSegLen := by
  unfold segClose
  by_cases h : st.curSegLen > 0
  · rw [if_pos h]
  · rw [if_neg h]
    have h0 : st.curSegLen = 0 := by push_neg at h; linarith
    rw [h0, add_zero]

lemma loop2_seg (ps : List (ℚ × ℚ)) :
    (segClose (loop2 ps)).segLenTotal = nonzeroSigCount ps := by
  cases ps with
  | nil =>
    show (segClose Loop2.init).segLenTotal = 0
    norm_num [segClose, Loop2.init]
  | cons p rest =>
    have h1 : loop2 (p :: rest) = loop2Aux (loop2Step Loop2.init true p) rest := rfl
    have hinit : (0 : ℚ) ≤ Loop2.init.curSegLen := le_refl 0
    obtain ⟨hstep, hsum⟩ := loop2Step_seg Loop2.init true p hinit
    obtain ⟨hrec, hrecsum⟩ := loop2Aux_seg rest (loop2Step Loop2.init true p) hstep
    rw [h1, segClose_seg _ hrec, hrecsum, hsum]
    simp only [nonzeroSigCount, Loop2.init]
    ring

lemma CMV_SegLenTotal (s r : List ℚ) :
    (CalcMomentsVectors s r).SegLenTotal = nonzeroSigCount (s.zip r) := by
  unfold CalcMomentsVectors
  split_ifs with h0
  · obtain rfl := List.length_eq_zero.mp h0
    rfl
  · show (segClose (loop2 (s.zip r))).segLenTotal = nonzeroSigCount (s.zip r)
    exact loop2_seg _

lemma merged_SegLenTotal (parts : List (List ℚ × List ℚ))
    (h : ∀ pr ∈ parts, pr.1.length = pr.2.length) :
    (mergedMoments parts).SegLenTotal
      = (CalcMomentsVectors (wholeSigs parts) (wholeRets parts)).SegLenTotal := by
  rw [CMV_SegLenTotal]
  exact merged_eq (fun m => m.SegLenTotal) nonzeroSigCount
    (fun a b => rfl) rfl rfl nonzeroSigCount_append
    (fun s r hsr => CMV_SegLenTotal s r) parts h

/-- Claim C3 (amended): for every partition of an equal-length (signal,
return) series into contiguous parts, merging the per-part
`CalcMomentsVectors` accumulators with `Moments.Add` reproduces the
whole-series accumulator exactly on twelve order-free fields: the count,
the seven pure sums, the absolute-signal sum, the two hit counters, and
`SegLenTotal` (every nonzero-signal element contributes exactly one unit to
an eventually-closed run, so the total run length is the nonzero-signal
count, an additive quantity); and `Moments.Add` is associative and
commutative. The merge does NOT preserve the cross-boundary fields
`SumAbsDeltaSig`, `SumProdLag`, `SumAbsProdLag`, `SegCount` and
`SegLenMax`. -/
theorem C3_moments_merge (parts : List (List ℚ × List ℚ))
    (h : ∀ pr ∈ parts, pr.1.length = pr.2.length) :
    ((mergedMoments parts).Count
        = (CalcMomentsVectors (wholeSigs parts) (wholeRets parts)).Count ∧
      (mergedMoments parts).SumSig
        = (CalcMomentsVectors (wholeSigs parts) (wholeRets parts)).SumSig ∧
      (mergedMoments parts).SumRet
        = (CalcMomentsVectors (wholeSigs parts) (wholeRets parts)).SumRet ∧
      (mergedMoments parts).SumProd
        = (CalcMomentsVectors (wholeSigs parts) (wholeRets parts)).SumProd ∧
      (mergedMoments parts).SumSqSig
        = (CalcMomentsVectors (wholeSigs parts) (wholeRets parts)).SumSqSig ∧
      (mergedMoments parts).SumSqRet
        = (CalcMomentsVectors (wholeSigs parts) (wholeRets parts)).SumSqRet ∧
      (mergedMoments parts).SumPnL
        = (CalcMomentsVectors (wholeSigs parts) (wholeRets parts)).SumPnL ∧
      (mergedMoments parts).SumSqPnL
        = (CalcMomentsVectors (wholeSigs parts) (wholeRets parts)).SumSqPnL ∧
      (mergedMoments parts).SumAbsSig
        = (CalcMomentsVectors (wholeSigs parts) (wholeRets parts)).SumAbsSig ∧
      (mergedMoments parts).Hits
        = (CalcMomentsVectors (wholeSigs parts) (wholeRets parts)).Hits ∧
      (mergedMoments parts).ValidHits
        = (CalcMomentsVectors (wholeSigs parts) (wholeRets parts)).ValidHits ∧
      (mergedMoments parts).SegLenTotal
        = (CalcMomentsVectors (wholeSigs parts) (wholeRets parts)).SegLenTotal) ∧
    (∀ a b c : Moments, (a.Add b).Add c = a.Add (b.Add c)) ∧
    (∀ a b : Moments, a.Add b = b.Add a) := by
  have hw : (wholeSigs parts).length = (wholeRets parts).length := whole_len parts h
  refine ⟨⟨?_, ?_, ?_, ?_, ?_, ?_, ?_, ?_, ?_, ?_, ?_, merged_SegLenTotal parts h⟩,
    momentsAdd_assoc, momentsAdd_comm⟩
  · rw [CMV_Count _ _ hw]
    exact merged_eq (fun m => m.Count) (fun l => (l.length : ℚ))
      (fun a b => rfl) rfl (by simp)
      (fun a b => by dsimp only; rw [List.length_append]; push_cast; ring)
      (fun s r hsr => CMV_Count s r hsr) parts h
  · rw [CMV_SumSig]
    exact merged_eq (fun m => m.SumSig) (fun l => (loop1 l).sumSig)
      (fun a b => rfl) rfl rfl
      (fun a b => by dsimp only; rw [loop1_append]; rfl)
      (fun s r hsr => CMV_SumSig s r) parts h
  · rw [CMV_SumRet]
    exact merged_eq (fun m => m.SumRet) (fun l => (loop1 l).sumRet)
      (fun a b => rfl) rfl rfl
      (fun a b => by dsimp only; rw [loop1_append]; rfl)
      (fun s r hsr => CMV_SumRet s r) parts h
  · rw [CMV_SumProd]
    exact merged_eq (fun m => m.SumProd) (fun l => (loop1 l).sumProd)
      (fun a b => rfl) rfl rfl
      (fun a b => by dsimp only; rw [loop1_append]; rfl)
      (fun s r hsr => CMV_SumProd s r) parts h
  · rw [CMV_SumSqSig]
    exact merged_eq (fun m => m.SumSqSig) (fun l => (loop1 l).sumSqSig)
      (fun a b => rfl) rfl rfl
      (fun a b => by dsimp only; rw [loop1_append]; rfl)
      (fun s r hsr => CMV_SumSqSig s r) parts h
  · rw [CMV_SumSqRet]
    exact merged_eq (fun m => m.SumSqRet) (fun l => (loop1 l).sumSqRet)
      (fun a b => rfl) rfl rfl
      (fun a b => by dsimp only; rw [loop1_append]; rfl)
      (fun s r hsr => CMV_SumSqRet s r) parts h
  · rw [CMV_SumPnL]
    exact merged_eq (fun m => m.SumPnL) (fun l => (loop1 l).sumPnL)
      (fun a b => rfl) rfl rfl
      (fun a b => by dsimp only; rw [loop1_append]; rfl)
      (fun s r hsr => CMV_SumPnL s r) parts h
  · rw [CMV_SumSqPnL]
    exact merged_eq (fun m => m.SumSqPnL) (fun l => (loop1 l).sumSqPnL)
      (fun a b => rfl) rfl rfl
      (fun a b => by dsimp only; rw [loop1_append]; rfl)
      (fun s r hsr => CMV_SumSqPnL s r) parts h
  · rw [CMV_SumAbsSig]
    exact merged_eq (fun m => m.SumAbsSig) (fun l => (loop1 l).sumAbsSig)
      (fun a b => rfl) rfl rfl
      (fun a b => by dsimp only; rw [loop1_append]; rfl)
      (fun s r hsr => CMV_SumAbsSig s r) parts h
  · rw [CMV_Hits]
    exact merged_eq (fun m => m.Hits) hitsCount
      (fun a b => rfl) rfl rfl hitsCount_append
      (fun s r hsr => CMV_Hits s r) parts h
  · rw [CMV_ValidHits]
    exact merged_eq (fun m => m.ValidHits) validHitsCount
      (fun a b => rfl) rfl rfl validHitsCount_append
      (fun s r hsr => CMV_ValidHits s r) parts h

/-- The concrete partition used to witness the merge law. -/
def partsW : List (List ℚ × List ℚ) := [([1, 2], [3, 4]), ([5], [6])]

/-- Witness for C3 at a concrete two-part partition. -/
theorem C3_moments_merge_witness :
    (∀ pr ∈ partsW, pr.1.length = pr.2.length) ∧
    (((mergedMoments partsW).Count
        = (CalcMomentsVectors (wholeSigs partsW) (wholeRets partsW)).Count ∧
      (mergedMoments partsW).SumSig
        = (CalcMomentsVectors (wholeSigs partsW) (wholeRets partsW)).SumSig ∧
      (mergedMoments partsW).SumRet
        = (CalcMomentsVectors (wholeSigs partsW) (wholeRets partsW)).SumRet ∧
      (mergedMoments partsW).SumProd
        = (CalcMomentsVectors (wholeSigs partsW) (wholeRets partsW)).SumProd ∧
      (mergedMoments partsW).SumSqSig
        = (CalcMomentsVectors (wholeSigs partsW) (wholeRets partsW)).SumSqSig ∧
      (mergedMoments partsW).SumSqRet
        = (CalcMomentsVectors (wholeSigs partsW) (wholeRets partsW)).SumSqRet ∧
      (mergedMoments partsW).SumPnL
        = (CalcMomentsVectors (wholeSigs partsW) (wholeRets partsW)).SumPnL ∧
      (mergedMoments partsW).SumSqPnL
        = (CalcMomentsVectors (wholeSigs partsW) (wholeRets partsW)).SumSqPnL ∧
      (mergedMoments partsW).SumAbsSig
        = (CalcMomentsVectors (wholeSigs partsW) (wholeRets partsW)).SumAbsSig ∧
      (mergedMoments partsW).Hits
        = (CalcMomentsVectors (wholeSigs partsW) (wholeRets partsW)).Hits ∧
      (mergedMoments partsW).ValidHits
        = (CalcMomentsVectors (wholeSigs partsW) (wholeRets partsW)).ValidHits ∧
      (mergedMoments partsW).SegLenTotal
        = (CalcMomentsVectors (wholeSigs partsW) (wholeRets partsW)).SegLenTotal) ∧
    (∀ a b c : Moments, (a.Add b).Add c = a.Add (b.Add c)) ∧
    (∀ a b : Moments, a.Add b = b.Add a)) :=
  ⟨by simp [partsW], C3_moments_merge partsW (by simp [partsW])⟩




/-! ## Claims C5 and C1: encoder failure conditions and the chunk-count head -/

lemma natLE_length : ∀ (w x : ℕ), (natLE w x).length = w := by
  intro w
  induction w with
  | zero => intro x; rfl
  | succ n ih => intro x; simp [natLE, ih]

/-- The per-chunk bad-delta scan from a given previous time: true when some
row's wrapped int64 time delta against its predecessor lies outside the
signed 32-bit range (the chunk's first row never computes a delta). -/
def badFrom (lastT : ℤ) : List Trade → Bool
  | [] => false
  | r :: rest =>
    if wrap64 (r.t - lastT) > 2147483647 ∨ wrap64 (r.t - lastT) < -2147483648 then true
    else badFrom r.t rest

/-- True when some inter-row wrapped time delta inside the chunk overflows
the signed 32-bit range. -/
def hasBadDelta : List Trade → Bool
  | [] => false
  | r0 :: rest => badFrom r0.t rest

/-- The dictionary log after processing the quantities `qs` in order,
ignoring the 65535-entry cap: a present value leaves the log unchanged, a
fresh value is appended. -/
def dictAfterList (log : List ℕ) (qs : List ℕ) : List ℕ :=
  qs.foldl (fun l q => if q ∈ l then l else l ++ [q]) log

lemma dictAfterList_cons (log : List ℕ) (q : ℕ) (qs : List ℕ) :
    dictAfterList log (q :: qs)
      = dictAfterList (if q ∈ log then log else log ++ [q]) qs :=
  rfl

lemma dictAfterList_append (log a b : List ℕ) :
    dictAfterList log (a ++ b) = dictAfterList (dictAfterList log a) b := by
  simp [dictAfterList, List.foldl_append]

lemma dictAfterList_length_mono : ∀ (qs log : List ℕ),
    log.length ≤ (dictAfterList log qs).length := by
  intro qs
  induction qs with
  | nil => intro log; exact le_refl _
  | cons q rest ih =>
    intro log
    rw [dictAfterList_cons]
    refine le_trans ?_ (ih _)
    split_ifs with h
    · exact le_refl _
    · simp

lemma dictAfterList_mem : ∀ (qs log : List ℕ) (a : ℕ),
    a ∈ dictAfterList log qs ↔ a ∈ log ∨ a ∈ qs := by
  intro qs
  induction qs with
  | nil => intro log a; simp [dictAfterList]
  | cons q rest ih =>
    intro log a
    rw [dictAfterList_cons, ih]
    split_ifs with h
    · simp only [List.mem_cons]
      constructor
      · rintro (hl | hr)
        · exact Or.inl hl
        · exact Or.inr (Or.inr hr)
      · rintro (hl | rfl | hr)
        · exact Or.inl hl
        · exact Or.inl h
        · exact Or.inr hr
    · simp only [List.mem_append, List.mem_cons, List.not_mem_nil, or_false]
      constructor
      · rintro ((hl | rfl) | hr)
        · exact Or.inl hl
        · exact Or.inr (Or.inl rfl)
        · exact Or.inr (Or.inr hr)
      · rintro (hl | rfl | hr)
        · exact Or.inl (Or.inl hl)
        · exact Or.inl (Or.inr rfl)
        · exact Or.inr hr

lemma dictAfterList_nodup : ∀ (qs log : List ℕ), log.Nodup →
    (dictAfterList log qs).Nodup := by
  intro qs
  induction qs with
  | nil => intro log h; exact h
  | cons q rest ih =>
    intro log h
    rw [dictAfterList_cons]
    apply ih
    split_ifs with hq
    · exact h
    · simp [List.nodup_append, h, hq]

lemma dictAfterList_nil_length (qs : List ℕ) :
    (dictAfterList [] qs).length = qs.dedup.length := by
  have hnd : (dictAfterList [] qs).Nodup := dictAfterList_nodup qs [] List.nodup_nil
  have htf : (dictAfterList [] qs).toFinset = qs.toFinset := by
    ext a
    simp [List.mem_toFinset, dictAfterList_mem]
  calc (dictAfterList [] qs).length
      = (dictAfterList [] qs).toFinset.card := (List.toFinset_card_of_nodup hnd).symm
  _ = qs.toFinset.card := by rw [htf]
  _ = qs.dedup.length := List.card_toFinset qs

lemma dictAfterList_replicate_mem : ∀ (n : ℕ) (l : List ℕ) (q : ℕ), q ∈ l →
    dictAfterList l (List.replicate n q) = l := by
  intro n
  induction n with
  | zero => intro l q h; rfl
  | succ m ih =>
    intro l q h
    rw [List.replicate_succ, dictAfterList_cons, if_pos h]
    exact ih l q h

lemma dictInsert_spec (log : List ℕ) (q : ℕ) :
    (q ∈ log ∧ ∃ id, dictInsert log q = .ok (id, log)) ∨
    (q ∉ log ∧ log.length < 65535 ∧ dictInsert log q = .ok (log.length, log ++ [q])) ∨
    (q ∉ log ∧ 65535 ≤ log.length ∧ dictInsert log q = .error .qtyDictOverflow) := by
  cases hfi : log.findIdx? (· = q) with
  | none =>
    have hq : q ∉ log := by
      intro hmem
      have := List.findIdx?_eq_none_iff.mp hfi q hmem
      simp at this
    by_cases hlen : log.length ≥ 65535
    · refine Or.inr (Or.inr ⟨hq, hlen, ?_⟩)
      unfold dictInsert
      rw [hfi]
      rw [if_pos hlen]
    · refine Or.inr (Or.inl ⟨hq, by omega, ?_⟩)
      unfold dictInsert
      rw [hfi]
      rw [if_neg hlen]
  | some id =>
    refine Or.inl ⟨?_, id, ?_⟩
    · have hs : (log.findIdx? (· = q)).isSome = true := by rw [hfi]; rfl
      rw [List.findIdx?_isSome, List.any_eq_true] at hs
      obtain ⟨x, hx, hpx⟩ := hs
      simp only [decide_eq_true_eq] at hpx
      rwa [hpx] at hx
    · unfold dictInsert
      rw [hfi]

lemma except_error_iff_not_ok {E A : Type} (e : Except E A) :
    (∃ x, e = .error x) ↔ ¬∃ a, e = .ok a := by
  cases e <;> simp

lemma badFrom_const (t0 : ℤ) : ∀ l : List Trade, (∀ r ∈ l, r.t = t0) →
    badFrom t0 l = false := by
  intro l
  induction l with
  | nil => intro _; rfl
  | cons r rest ih =>
    intro h
    have hr : r.t = t0 := h r (List.mem_cons_self _ _)
    simp only [badFrom]
    rw [hr]
    rw [if_neg (by norm_num [wrap64])]
    exact ih (fun x hx => h x (List.mem_cons_of_mem _ hx))

lemma hasBadDelta_const (t0 : ℤ) (l : List Trade) (h : ∀ r ∈ l, r.t = t0) :
    hasBadDelta l = false := by
  cases l with
  | nil => rfl
  | cons r0 rest =>
    simp only [hasBadDelta]
    rw [h r0 (List.mem_cons_self _ _)]
    exact badFrom_const t0 rest (fun x hx => h x (List.mem_cons_of_mem _ hx))

/-- Success/overflow characterization of the per-row loop, with the final
dictionary log on success. -/
lemma encRows_spec : ∀ (rows : List Trade) (log : List ℕ) (lastT lastP : ℤ),
    log.length ≤ 65535 →
    ((∃ out, encRows log lastT lastP rows = .ok out) ↔
      (badFrom lastT rows = false ∧
        (dictAfterList log (rows.map Trade.q)).length ≤ 65535)) ∧
    (∀ ts ps qs bs logF, encRows log lastT lastP rows = .ok (ts, ps, qs, bs, logF) →
      logF = dictAfterList log (rows.map Trade.q)) := by
  intro rows
  induction rows with
  | nil =>
    intro log lastT lastP hlog
    refine ⟨⟨fun _ => ⟨rfl, hlog⟩, fun _ => ⟨_, rfl⟩⟩, ?_⟩
    intro ts ps qs bs logF hok
    simp only [encRows, Except.ok.injEq, Prod.mk.injEq] at hok
    exact hok.2.2.2.2.symm
  | cons r rest ih =>
    intro log lastT lastP hlog
    by_cases hbad : wrap64 (r.t - lastT) > 2147483647 ∨ wrap64 (r.t - lastT) < -2147483648
    · have he : encRows log lastT lastP (r :: rest) = .error .timeDeltaOverflow := by
        simp only [encRows]
        rw [if_pos hbad]
      refine ⟨⟨?_, ?_⟩, ?_⟩
      · rintro ⟨out, hout⟩
        rw [he] at hout
        exact Except.noConfusion hout
      · rintro ⟨hbf, -⟩
        exfalso
        simp only [badFrom] at hbf
        rw [if_pos hbad] at hbf
        exact Bool.noConfusion hbf
      · intro ts ps qs bs logF hok
        rw [he] at hok
        exact Except.noConfusion hok
    · have hbf : badFrom lastT (r :: rest) = badFrom r.t rest := by
        simp only [badFrom]
        rw [if_neg hbad]
      rcases dictInsert_spec log r.q with ⟨hmem, id, hdi⟩ | ⟨hnm, hlt, hdi⟩ | ⟨hnm, hge, hdi⟩
      · have hd : dictAfterList log (r.q :: rest.map Trade.q)
            = dictAfterList log (rest.map Trade.q) := by
          rw [dictAfterList_cons, if_pos hmem]
        obtain ⟨ihiff, ihok⟩ := ih log r.t r.p hlog
        cases hre : encRows log r.t r.p rest with
        | error e =>
          have he : encRows log lastT lastP (r :: rest) = .error e := by
            simp only [encRows]
            rw [if_neg hbad, hdi]
            dsimp only
            rw [hre]
          refine ⟨⟨?_, ?_⟩, ?_⟩
          · rintro ⟨out, hout⟩
            rw [he] at hout
            exact Except.noConfusion hout
          · rintro ⟨hb2, hlen2⟩
            exfalso
            rw [hbf] at hb2
            simp only [List.map_cons] at hlen2
            rw [hd] at hlen2
            obtain ⟨out, hout⟩ := ihiff.mpr ⟨hb2, hlen2⟩
            rw [hre] at hout
            exact Except.noConfusion hout
          · intro ts ps qs bs logF hok
            rw [he] at hok
            exact Except.noConfusion hok
        | ok out5 =>
          obtain ⟨ts, ps, qs, bs, logF⟩ := out5
          have he : encRows log lastT lastP (r :: rest)
              = .ok (wrap64 (r.t - lastT) :: ts, wrap64 (r.p - lastP) :: ps,
                  id :: qs, r.buy :: bs, logF) := by
            simp only [encRows]
            rw [if_neg hbad, hdi]
            dsimp only
            rw [hre]
          refine ⟨⟨?_, ?_⟩, ?_⟩
          · intro _
            obtain ⟨hb2, hlen2⟩ := ihiff.mp ⟨_, hre⟩
            refine ⟨by rw [hbf]; exact hb2, ?_⟩
            simp only [List.map_cons]
            rw [hd]
            exact hlen2
          · intro _
            exact ⟨_, he⟩
          · intro ts' ps' qs' bs' logF' hok
            rw [he] at hok
            simp only [Except.ok.injEq, Prod.mk.injEq] at hok
            rw [← hok.2.2.2.2]
            simp only [List.map_cons]
            rw [hd]
            exact ihok ts ps qs bs logF hre
      · have hd : dictAfterList log (r.q :: rest.map Trade.q)
            = dictAfterList (log ++ [r.q]) (rest.map Trade.q) := by
          rw [dictAfterList_cons, if_neg hnm]
        have hlog2 : (log ++ [r.q]).length ≤ 65535 := by
          simp only [List.length_append, List.length_singleton]
          omega
        obtain ⟨ihiff, ihok⟩ := ih (log ++ [r.q]) r.t r.p hlog2
        cases hre : encRows (log ++ [r.q]) r.t r.p rest with
        | error e =>
          have he : encRows log lastT lastP (r :: rest) = .error e := by
            simp only [encRows]
            rw [if_neg hbad, hdi]
            dsimp only
            rw [hre]
          refine ⟨⟨?_, ?_⟩, ?_⟩
          · rintro ⟨out, hout⟩
            rw [he] at hout
            exact Except.noConfusion hout
          · rintro ⟨hb2, hlen2⟩
            exfalso
            rw [hbf] at hb2
            simp only [List.map_cons] at hlen2
            rw [hd] at hlen2
            obtain ⟨out, hout⟩ := ihiff.mpr ⟨hb2, hlen2⟩
            rw [hre] at hout
            exact Except.noConfusion hout
          · intro ts ps qs bs logF hok
            rw [he] at hok
            exact Except.noConfusion hok
        | ok out5 =>
          obtain ⟨ts, ps, qs, bs, logF⟩ := out5
          have he : encRows log lastT lastP (r :: rest)
              = .ok (wrap64 (r.t - lastT) :: ts, wrap64 (r.p - lastP) :: ps,
                  log.length :: qs, r.buy :: bs, logF) := by
            simp only [encRows]
            rw [if_neg hbad, hdi]
            dsimp only
            rw [hre]
          refine ⟨⟨?_, ?_⟩, ?_⟩
          · intro _
            obtain ⟨hb2, hlen2⟩ := ihiff.mp ⟨_, hre⟩
            refine ⟨by rw [hbf]; exact hb2, ?_⟩
            simp only [List.map_cons]
            rw [hd]
            exact hlen2
          · intro _
            exact ⟨_, he⟩
          · intro ts' ps' qs' bs' logF' hok
            rw [he] at hok
            simp only [Except.ok.injEq, Prod.mk.injEq] at hok
            rw [← hok.2.2.2.2]
            simp only [List.map_cons]
            rw [hd]
            exact ihok ts ps qs bs logF hre
      · have he : encRows log lastT lastP (r :: rest) = .error .qtyDictOverflow := by
          simp only [encRows]
          rw [if_neg hbad, hdi]
        refine ⟨⟨?_, ?_⟩, ?_⟩
        · rintro ⟨out, hout⟩
          rw [he] at hout
          exact Except.noConfusion hout
        · rintro ⟨-, hlen2⟩
          exfalso
          simp only [List.map_cons] at hlen2
          rw [dictAfterList_cons, if_neg hnm] at hlen2
          have hmono := dictAfterList_length_mono (rest.map Trade.q) (log ++ [r.q])
          simp only [List.length_append, List.length_singleton] at hmono
          omega
        · intro ts ps qs bs logF hok
          rw [he] at hok
          exact Except.noConfusion hok


/-- Success characterization and output shape of one chunk's encode. -/
lemma encodeChunk_spec (r0 : Trade) (rest : List Trade) (log : List ℕ)
    (hlog : log.length ≤ 65535) :
    ((∃ out, encodeChunk (r0 :: rest) log = .ok out) ↔
      (hasBadDelta (r0 :: rest) = false ∧
        (dictAfterList log ((r0 :: rest).map Trade.q)).length ≤ 65535)) ∧
    (∀ bytes logF, encodeChunk (r0 :: rest) log = .ok (bytes, logF) →
      logF = dictAfterList log ((r0 :: rest).map Trade.q) ∧
      ∃ body, bytes = ((natLE 2 (r0 :: rest).length ++ natLE 8 (bits64 r0.t))
        ++ natLE 8 (bits64 r0.p)) ++ body) := by
  rcases dictInsert_spec log r0.q with ⟨hmem, id0, hdi⟩ | ⟨hnm, hlt, hdi⟩ | ⟨hnm, hge, hdi⟩
  · have hd : dictAfterList log (r0.q :: rest.map Trade.q)
        = dictAfterList log (rest.map Trade.q) := by
      rw [dictAfterList_cons, if_pos hmem]
    obtain ⟨riff, rok⟩ := encRows_spec rest log r0.t r0.p hlog
    cases hre : encRows log r0.t r0.p rest with
    | error e =>
      have he : encodeChunk (r0 :: rest) log = .error e := by
        simp only [encodeChunk]
        rw [hdi]
        dsimp only
        rw [hre]
      refine ⟨⟨?_, ?_⟩, ?_⟩
      · rintro ⟨out, hout⟩
        rw [he] at hout
        exact Except.noConfusion hout
      · rintro ⟨hb2, hlen2⟩
        exfalso
        simp only [hasBadDelta] at hb2
        simp only [List.map_cons] at hlen2
        rw [hd] at hlen2
        obtain ⟨out, hout⟩ := riff.mpr ⟨hb2, hlen2⟩
        rw [hre] at hout
        exact Except.noConfusion hout
      · intro bytes logF hok
        rw [he] at hok
        exact Except.noConfusion hok
    | ok out5 =>
      obtain ⟨ts, ps, qs, bs, logF⟩ := out5
      have he : ∃ body, encodeChunk (r0 :: rest) log
          = .ok (((natLE 2 (r0 :: rest).length ++ natLE 8 (bits64 r0.t))
              ++ natLE 8 (bits64 r0.p)) ++ body, logF) := by
        simp only [encodeChunk]
        rw [hdi]
        dsimp only
        rw [hre]
        exact ⟨_, rfl⟩
      obtain ⟨body, hb⟩ := he
      refine ⟨⟨?_, ?_⟩, ?_⟩
      · intro _
        obtain ⟨hb2, hlen2⟩ := riff.mp ⟨_, hre⟩
        refine ⟨by simp only [hasBadDelta]; exact hb2, ?_⟩
        simp only [List.map_cons]
        rw [hd]
        exact hlen2
      · intro _
        exact ⟨_, hb⟩
      · intro bytes' logF' hok
        rw [hb] at hok
        simp only [Except.ok.injEq, Prod.mk.injEq] at hok
        refine ⟨?_, ⟨body, hok.1.symm⟩⟩
        rw [← hok.2]
        simp only [List.map_cons]
        rw [hd]
        exact rok ts ps qs bs logF hre
  · have hd : dictAfterList log (r0.q :: rest.map Trade.q)
        = dictAfterList (log ++ [r0.q]) (rest.map Trade.q) := by
      rw [dictAfterList_cons, if_neg hnm]
    have hlog2 : (log ++ [r0.q]).length ≤ 65535 := by
      simp only [List.length_append, List.length_singleton]
      omega
    obtain ⟨riff, rok⟩ := encRows_spec rest (log ++ [r0.q]) r0.t r0.p hlog2
    cases hre : encRows (log ++ [r0.q]) r0.t r0.p rest with
    | error e =>
      have he : encodeChunk (r0 :: rest) log = .error e := by
        simp only [encodeChunk]
        rw [hdi]
        dsimp only
        rw [hre]
      refine ⟨⟨?_, ?_⟩, ?_⟩
      · rintro ⟨out, hout⟩
        rw [he] at hout
        exact Except.noConfusion hout
      · rintro ⟨hb2, hlen2⟩
        exfalso
        simp only [hasBadDelta] at hb2
        simp only [List.map_cons] at hlen2
        rw [hd] at hlen2
        obtain ⟨out, hout⟩ := riff.mpr ⟨hb2, hlen2⟩
        rw [hre] at hout
        exact Except.noConfusion hout
      · intro bytes logF hok
        rw [he] at hok
        exact Except.noConfusion hok
    | ok out5 =>
      obtain ⟨ts, ps, qs, bs, logF⟩ := out5
      have he : ∃ body, encodeChunk (r0 :: rest) log
          = .ok (((natLE 2 (r0 :: rest).length ++ natLE 8 (bits64 r0.t))
              ++ natLE 8 (bits64 r0.p)) ++ body, logF) := by
        simp only [encodeChunk]
        rw [hdi]
        dsimp only
        rw [hre]
        exact ⟨_, rfl⟩
      obtain ⟨body, hb⟩ := he
      refine ⟨⟨?_, ?_⟩, ?_⟩
      · intro _
        obtain ⟨hb2, hlen2⟩ := riff.mp ⟨_, hre⟩
        refine ⟨by simp only [hasBadDelta]; exact hb2, ?_⟩
        simp only [List.map_cons]
        rw [hd]
        exact hlen2
      · intro _
        exact ⟨_, hb⟩
      · intro bytes' logF' hok
        rw [hb] at hok
        simp only [Except.ok.injEq, Prod.mk.injEq] at hok
        refine ⟨?_, ⟨body, hok.1.symm⟩⟩
        rw [← hok.2]
        simp only [List.map_cons]
        rw [hd]
        exact rok ts ps qs bs logF hre
  · have he : encodeChunk (r0 :: rest) log = .error .qtyDictOverflow := by
      simp only [encodeChunk]
      rw [hdi]
    refine ⟨⟨?_, ?_⟩, ?_⟩
    · rintro ⟨out, hout⟩
      rw [he] at hout
      exact Except.noConfusion hout
    · rintro ⟨-, hlen2⟩
      exfalso
      simp only [List.map_cons] at hlen2
      rw [dictAfterList_cons, if_neg hnm] at hlen2
      have hmono := dictAfterList_length_mono (rest.map Trade.q) (log ++ [r0.q])
      simp only [List.length_append, List.length_singleton] at hmono
      omega
    · intro bytes logF hok
      rw [he] at hok
      exact Except.noConfusion hok

/-- Success characterization of the chunk loop, threading the dictionary. -/
lemma encChunks_spec : ∀ (cs : List (List Trade)) (log : List ℕ) (pos : ℕ),
    log.length ≤ 65535 → (∀ c ∈ cs, c ≠ []) →
    ((∃ out, encChunks log pos cs = .ok out) ↔
      ((∀ c ∈ cs, hasBadDelta c = false) ∧
        (dictAfterList log (cs.flatten.map Trade.q)).length ≤ 65535)) ∧
    (∀ bs offs logF, encChunks log pos cs = .ok (bs, offs, logF) →
      logF = dictAfterList log (cs.flatten.map Trade.q)) := by
  intro cs
  induction cs with
  | nil =>
    intro log pos hlog hne
    refine ⟨⟨fun _ => ⟨fun c hc => absurd hc (List.not_mem_nil c), by simpa using hlog⟩,
      fun _ => ⟨_, rfl⟩⟩, ?_⟩
    intro bs offs logF hok
    simp only [encChunks, Except.ok.injEq, Prod.mk.injEq] at hok
    simpa using hok.2.2.symm
  | cons c cs2 ih =>
    intro log pos hlog hne
    have hc0 : c ≠ [] := hne c (List.mem_cons_self _ _)
    obtain ⟨c0, crest, rfl⟩ : ∃ c0 crest, c = c0 :: crest := by
      cases c with
      | nil => exact absurd rfl hc0
      | cons a b => exact ⟨a, b, rfl⟩
    obtain ⟨ciff, cok⟩ := encodeChunk_spec c0 crest log hlog
    have hflat : ((c0 :: crest) :: cs2).flatten.map Trade.q
        = ((c0 :: crest).map Trade.q) ++ (cs2.flatten.map Trade.q) := by
      simp
    cases hec : encodeChunk (c0 :: crest) log with
    | error e =>
      have he : encChunks log pos ((c0 :: crest) :: cs2) = .error e := by
        simp only [encChunks]
        rw [hec]
      refine ⟨⟨?_, ?_⟩, ?_⟩
      · rintro ⟨out, hout⟩
        rw [he] at hout
        exact Except.noConfusion hout
      · rintro ⟨hall, hlen⟩
        exfalso
        have h1 : hasBadDelta (c0 :: crest) = false := hall _ (List.mem_cons_self _ _)
        rw [hflat, dictAfterList_append] at hlen
        have hmono := dictAfterList_length_mono (cs2.flatten.map Trade.q)
          (dictAfterList log ((c0 :: crest).map Trade.q))
        obtain ⟨out, hout⟩ := ciff.mpr ⟨h1, by omega⟩
        rw [hec] at hout
        exact Except.noConfusion hout
      · intro bs offs logF hok
        rw [he] at hok
        exact Except.noConfusion hok
    | ok pr =>
      obtain ⟨b, log1⟩ := pr
      obtain ⟨hbc1, hbc2⟩ := ciff.mp ⟨_, hec⟩
      obtain ⟨hlog1, -⟩ := cok b log1 hec
      have hlog1len : log1.length ≤ 65535 := by rw [hlog1]; exact hbc2
      obtain ⟨riff, rok⟩ := ih log1 (pos + b.length) hlog1len
        (fun c2 hcm => hne c2 (List.mem_cons_of_mem _ hcm))
      cases hrec : encChunks log1 (pos + b.length) cs2 with
      | error e =>
        have he : encChunks log pos ((c0 :: crest) :: cs2) = .error e := by
          simp only [encChunks]
          rw [hec]
          dsimp only
          rw [hrec]
        refine ⟨⟨?_, ?_⟩, ?_⟩
        · rintro ⟨out, hout⟩
          rw [he] at hout
          exact Except.noConfusion hout
        · rintro ⟨hall, hlen⟩
          exfalso
          rw [hflat, dictAfterList_append, ← hlog1] at hlen
          obtain ⟨out, hout⟩ := riff.mpr
            ⟨fun c2 hcm => hall c2 (List.mem_cons_of_mem _ hcm), hlen⟩
          rw [hrec] at hout
          exact Except.noConfusion hout
        · intro bs offs logF hok
          rw [he] at hok
          exact Except.noConfusion hok
      | ok tr =>
        obtain ⟨bs2, offs2, logF2⟩ := tr
        have he : encChunks log pos ((c0 :: crest) :: cs2)
            = .ok (b ++ bs2, pos :: offs2, logF2) := by
          simp only [encChunks]
          rw [hec]
          dsimp only
          rw [hrec]
        refine ⟨⟨?_, ?_⟩, ?_⟩
        · intro _
          obtain ⟨hall2, hlen2⟩ := riff.mp ⟨_, hrec⟩
          refine ⟨?_, ?_⟩
          · intro c2 hcm
            rcases List.mem_cons.mp hcm with rfl | hcm2
            · exact hbc1
            · exact hall2 c2 hcm2
          · rw [hflat, dictAfterList_append, ← hlog1]
            exact hlen2
        · intro _
          exact ⟨_, he⟩
        · intro bs' offs' logF' hok
          rw [he] at hok
          simp only [Except.ok.injEq, Prod.mk.injEq] at hok
          rw [← hok.2.2, hflat, dictAfterList_append, ← hlog1]
          exact rok bs2 offs2 logF2 hrec


lemma chunksGNC_flatten_aux : ∀ (n : ℕ) (l : List Trade), l.length ≤ n →
    (chunksGNC l).flatten = l := by
  intro n
  induction n with
  | zero =>
    intro l hl
    obtain rfl : l = [] := List.length_eq_zero.mp (Nat.le_zero.mp hl)
    simp [chunksGNC]
  | succ n ih =>
    intro l hl
    cases l with
    | nil => simp [chunksGNC]
    | cons a rest =>
      simp only [chunksGNC, List.flatten_cons]
      rw [ih ((a :: rest).drop GNCChunkSize)
        (by simp only [List.length_drop, List.length_cons, GNCChunkSize]
            simp only [List.length_cons] at hl
            omega)]
      exact List.take_append_drop _ _

lemma chunksGNC_flatten (l : List Trade) : (chunksGNC l).flatten = l :=
  chunksGNC_flatten_aux l.length l (le_refl _)

lemma chunksGNC_ne_nil_aux : ∀ (n : ℕ) (l : List Trade), l.length ≤ n →
    ∀ c ∈ chunksGNC l, c ≠ [] := by
  intro n
  induction n with
  | zero =>
    intro l hl
    obtain rfl : l = [] := List.length_eq_zero.mp (Nat.le_zero.mp hl)
    intro c hc
    simp [chunksGNC] at hc
  | succ n ih =>
    intro l hl
    cases l with
    | nil =>
      intro c hc
      simp [chunksGNC] at hc
    | cons a rest =>
      intro c hc
      simp only [chunksGNC, List.mem_cons] at hc
      rcases hc with rfl | hc2
      · simp [List.take_eq_nil_iff, GNCChunkSize]
      · exact ih ((a :: rest).drop GNCChunkSize)
          (by simp only [List.length_drop, List.length_cons, GNCChunkSize]
              simp only [List.length_cons] at hl
              omega) c hc2

lemma chunksGNC_ne_nil (l : List Trade) : ∀ c ∈ chunksGNC l, c ≠ [] :=
  chunksGNC_ne_nil_aux l.length l (le_refl _)

/-- A day of exactly one full chunk partitions as that single chunk. -/
lemma chunksGNC_full (l : List Trade) (h : l.length = GNCChunkSize) :
    chunksGNC l = [l] := by
  cases l with
  | nil => simp [GNCChunkSize] at h
  | cons a rest =>
    simp only [chunksGNC]
    rw [List.take_of_length_le (le_of_eq h), List.drop_of_length_le (le_of_eq h)]
    simp [chunksGNC]

lemma encodeGNC_ok_count (rows : List Trade) (blob : List ℕ) (cnt : ℕ)
    (hok : encodeGNC rows = .ok (blob, cnt)) : cnt = rows.length := by
  cases rows with
  | nil =>
    simp only [encodeGNC, Except.ok.injEq, Prod.mk.injEq] at hok
    simp [← hok.2]
  | cons r0 rest =>
    cases hec : encChunks [] 32 (chunksGNC (r0 :: rest)) with
    | error e =>
      have he : encodeGNC (r0 :: rest) = .error e := by
        simp only [encodeGNC]
        rw [hec]
      rw [he] at hok
      exact Except.noConfusion hok
    | ok tr =>
      obtain ⟨cb, offs, logF⟩ := tr
      have he : ∃ bytes, encodeGNC (r0 :: rest) = .ok (bytes, (r0 :: rest).length) := by
        simp only [encodeGNC]
        rw [hec]
        exact ⟨_, rfl⟩
      obtain ⟨bytes, hb⟩ := he
      rw [hb] at hok
      simp only [Except.ok.injEq, Prod.mk.injEq] at hok
      exact hok.2.symm

/-- The day-level encoder fails exactly when some chunk has an inter-row
wrapped time delta outside the int32 range, or the day has more than 65535
distinct scaled quantities. -/
lemma encodeGNC_error_characterization (rows : List Trade) :
    (∃ e, encodeGNC rows = .error e) ↔
      ((chunksGNC rows).any hasBadDelta = true ∨
        65535 < (rows.map Trade.q).dedup.length) := by
  cases rows with
  | nil =>
    constructor
    · rintro ⟨e, he⟩
      simp only [encodeGNC] at he
      exact Except.noConfusion he
    · intro h
      exfalso
      rcases h with h | h
      · simp [chunksGNC] at h
      · simp at h
  | cons r0 rest =>
    obtain ⟨ciff, -⟩ := encChunks_spec (chunksGNC (r0 :: rest)) [] 32 (by simp)
      (chunksGNC_ne_nil (r0 :: rest))
    have hflat : (chunksGNC (r0 :: rest)).flatten = r0 :: rest := chunksGNC_flatten _
    have hlen : (dictAfterList [] ((chunksGNC (r0 :: rest)).flatten.map Trade.q)).length
        = ((r0 :: rest).map Trade.q).dedup.length := by
      rw [hflat, dictAfterList_nil_length]
    constructor
    · rintro ⟨e, he⟩
      cases hec : encChunks [] 32 (chunksGNC (r0 :: rest)) with
      | error e2 =>
        by_contra hcon
        push_neg at hcon
        obtain ⟨h1, h2⟩ := hcon
        have hall : ∀ c ∈ chunksGNC (r0 :: rest), hasBadDelta c = false := by
          intro c hcm
          by_contra hne2
          exact h1 (List.any_eq_true.mpr ⟨c, hcm, by simpa using hne2⟩)
        obtain ⟨out, hout⟩ := ciff.mpr ⟨hall, by rw [hlen]; omega⟩
        rw [hec] at hout
        exact Except.noConfusion hout
      | ok tr =>
        exfalso
        obtain ⟨cb, offs, logF⟩ := tr
        have hh : ∃ bytes, encodeGNC (r0 :: rest) = .ok (bytes, (r0 :: rest).length) := by
          simp only [encodeGNC]
          rw [hec]
          exact ⟨_, rfl⟩
        obtain ⟨bytes, hb⟩ := hh
        rw [hb] at he
        exact Except.noConfusion he
    · intro hrhs
      have hnok : ¬∃ out, encChunks [] 32 (chunksGNC (r0 :: rest)) = .ok out := by
        rintro ⟨out, hout⟩
        obtain ⟨hall, hgl⟩ := ciff.mp ⟨out, hout⟩
        rcases hrhs with h | h
        · obtain ⟨c, hcm, hbad2⟩ := List.any_eq_true.mp h
          rw [hall c hcm] at hbad2
          exact Bool.noConfusion hbad2
        · rw [hlen] at hgl
          omega
      obtain ⟨e, he⟩ := (except_error_iff_not_ok _).mpr hnok
      refine ⟨e, ?_⟩
      simp only [encodeGNC]
      rw [he]

/-- Claim C5 (amended): for every day of parsed trades, `encodeGNC` returns
an error exactly when some chunk's inter-row wrapped time delta lies
outside the signed 32-bit range or the day has more than 65535 (not 65536)
distinct scaled quantities; on success the returned count is the row count.
The encoder is a pure function of the one day's rows, so failure cannot
affect any other day. -/
theorem C5_encode_error_iff (rows : List Trade) :
    ((∃ e, encodeGNC rows = .error e) ↔
      ((chunksGNC rows).any hasBadDelta = true ∨
        65535 < (rows.map Trade.q).dedup.length)) ∧
    (∀ blob cnt, encodeGNC rows = .ok (blob, cnt) → cnt = rows.length) :=
  ⟨encodeGNC_error_characterization rows,
    fun blob cnt h => encodeGNC_ok_count rows blob cnt h⟩

/-- A day of one full chunk with 65536 distinct quantities and no time
motion: within the claimed 65,536-entry dictionary budget, yet the encoder
rejects it (the 65,536th distinct value overflows the 65,535-entry cap). -/
def rows65536 : List Trade := (List.range 65536).map fun i => ⟨0, 0, i, 1, false⟩

/-- Claim C5 (counterexample to the claim as stated): `rows65536` has no
out-of-range time delta and exactly 65536 = the claimed limit of distinct
quantities, so the claim as stated promises success, but encodeGNC errors. -/
theorem C5_encode_error_iff_cex :
    (∃ e, encodeGNC rows65536 = .error e) ∧
    (chunksGNC rows65536).any hasBadDelta = false ∧
    (rows65536.map Trade.q).dedup.length = 65536 := by
  have hq : rows65536.map Trade.q = List.range 65536 := by
    simp only [rows65536, List.map_map]
    exact List.map_id _
  have hded : (rows65536.map Trade.q).dedup.length = 65536 := by
    rw [hq, (List.nodup_range 65536).dedup, List.length_range]
  have hlen : rows65536.length = 65536 := by
    simp [rows65536]
  have htall : ∀ r ∈ rows65536, r.t = 0 := by
    intro r hr
    simp only [rows65536, List.mem_map] at hr
    obtain ⟨i, -, rfl⟩ := hr
    rfl
  have hchunks : chunksGNC rows65536 = [rows65536] :=
    chunksGNC_full _ (by rw [hlen]; rfl)
  have hnb : hasBadDelta rows65536 = false := hasBadDelta_const 0 rows65536 htall
  refine ⟨?_, ?_, hded⟩
  · apply (encodeGNC_error_characterization rows65536).mpr
    right
    omega
  · rw [hchunks]
    simp [hnb]

/-- The bytes of any successful chunk encode start with the 18-byte head:
`uint16(count)`, int64 base time, int64 base price (no dictionary-size
hypothesis is needed for the shape). -/
lemma encodeChunk_ok_shape (r0 : Trade) (rest : List Trade) (log bytes logF : List ℕ)
    (hok : encodeChunk (r0 :: rest) log = .ok (bytes, logF)) :
    ∃ body, bytes = ((natLE 2 (r0 :: rest).length ++ natLE 8 (bits64 r0.t))
      ++ natLE 8 (bits64 r0.p)) ++ body := by
  cases hdi : dictInsert log r0.q with
  | error e =>
    have he : encodeChunk (r0 :: rest) log = .error e := by
      simp only [encodeChunk]
      rw [hdi]
    rw [he] at hok
    exact Except.noConfusion hok
  | ok pr =>
    obtain ⟨id0, log0⟩ := pr
    cases hre : encRows log0 r0.t r0.p rest with
    | error e =>
      have he : encodeChunk (r0 :: rest) log = .error e := by
        simp only [encodeChunk]
        rw [hdi]
        dsimp only
        rw [hre]
      rw [he] at hok
      exact Except.noConfusion hok
    | ok out5 =>
      obtain ⟨ts, ps, qs, bs, logF2⟩ := out5
      have he : ∃ body, encodeChunk (r0 :: rest) log
          = .ok (((natLE 2 (r0 :: rest).length ++ natLE 8 (bits64 r0.t))
              ++ natLE 8 (bits64 r0.p)) ++ body, logF2) := by
        simp only [encodeChunk]
        rw [hdi]
        dsimp only
        rw [hre]
        exact ⟨_, rfl⟩
      obtain ⟨body, hb⟩ := he
      rw [hb] at hok
      simp only [Except.ok.injEq, Prod.mk.injEq] at hok
      exact ⟨body, hok.1.symm⟩

/-- Claim C1: any chunk of exactly GNCChunkSize = 65536 rows that encodes
successfully carries a zero uint16 row count in its chunk head
(`uint16(65536) = 0`), so the decoder will read it back as zero rows. -/
theorem C1_chunk_count_truncated (rows : List Trade) (log : List ℕ)
    (out : List ℕ × List ℕ) (hlen : rows.length = GNCChunkSize)
    (hok : encodeChunk rows log = .ok out) :
    readLE out.1 0 2 = 0 := by
  cases rows with
  | nil => simp [GNCChunkSize] at hlen
  | cons r0 rest =>
    obtain ⟨bytes, logF⟩ := out
    obtain ⟨body, hbytes⟩ := encodeChunk_ok_shape r0 rest log bytes logF hok
    dsimp only
    rw [hbytes]
    rw [readLE_append_left _ _ 0 2
      (by simp only [List.length_append, natLE_length]; omega)]
    rw [readLE_append_left _ _ 0 2
      (by simp only [List.length_append, natLE_length]; omega)]
    rw [readLE_append_left _ _ 0 2 (by simp only [natLE_length]; omega)]
    rw [hlen]
    decide


/-- The concrete full chunk used to witness C1: 65536 identical rows. -/
def rowsC1 : List Trade := List.replicate GNCChunkSize ⟨0, 0, 5, 1, false⟩

lemma rowsC1_cons : rowsC1 = (⟨0, 0, 5, 1, false⟩ : Trade)
    :: List.replicate 65535 ⟨0, 0, 5, 1, false⟩ := by
  rw [rowsC1, show GNCChunkSize = 65535 + 1 from rfl, List.replicate_succ]

/-- Witness for C1: `rowsC1` is one full chunk, it encodes successfully,
and the head's uint16 row count reads back 0. -/
theorem C1_chunk_count_truncated_witness :
    rowsC1.length = GNCChunkSize ∧
    ∃ out, encodeChunk rowsC1 [] = .ok out ∧ readLE out.1 0 2 = 0 := by
  have hlen : rowsC1.length = GNCChunkSize := by
    simp [rowsC1]
  obtain ⟨ciff, -⟩ := encodeChunk_spec ⟨0, 0, 5, 1, false⟩
    (List.replicate 65535 ⟨0, 0, 5, 1, false⟩) [] (by simp)
  have hdict : (dictAfterList []
      (((⟨0, 0, 5, 1, false⟩ : Trade)
        :: List.replicate 65535 (⟨0, 0, 5, 1, false⟩ : Trade)).map Trade.q)).length
      ≤ 65535 := by
    simp only [List.map_cons, List.map_replicate]
    rw [dictAfterList_cons, if_neg (by simp)]
    rw [dictAfterList_replicate_mem 65535 ([] ++ [5]) 5 (by simp)]
    simp
  have hnb : hasBadDelta ((⟨0, 0, 5, 1, false⟩ : Trade)
      :: List.replicate 65535 (⟨0, 0, 5, 1, false⟩ : Trade)) = false := by
    apply hasBadDelta_const 0
    intro r hr
    rcases List.mem_cons.mp hr with rfl | hr2
    · rfl
    · rw [List.eq_of_mem_replicate hr2]
  obtain ⟨out, hout⟩ := ciff.mpr ⟨hnb, hdict⟩
  have hok : encodeChunk rowsC1 [] = .ok out := by
    rw [rowsC1_cons]
    exact hout
  exact ⟨hlen, out, hok, C1_chunk_count_truncated rowsC1 [] out hlen hok⟩

end AggTrades
